import Mathlib

/-!
Verification development for the logo-search proof-of-concept repository.

The repository is TypeScript running against DynamoDB, S3 and a vision API.
This file gives a shallow embedding of the data-access layer (both the
decoupled three-table repository and the single-table repository), the
HTTP API routes, and the ingestion scripts, and proves the frozen claims
about them.

Modelling conventions:
* JavaScript runtime values stored in DynamoDB items are modelled by
  `JSVal`; JavaScript numbers (IEEE doubles) are modelled by `JSNum`,
  an exact rational together with the non-finite values `nan`,
  `posInf` and `negInf`.  Exact float rounding is not modelled: no code
  under verification does arithmetic on stored numbers other than
  comparison and max, which are exact.
* Fields that the code only ever consults through `Array.isArray` are
  modelled as `Option (List _)`, `none` covering every non-array value.
* External calls (DynamoDB send, S3 list, Date parsing, the sort
  comparator host) are made explicit: the database is a value, responses
  of batch writes are an oracle function, `Date.parse` is a parameter.
* `Array.prototype.sort` is modelled as a stable top-down merge sort,
  the algorithm used by the major JS engines.
-/

namespace LogoSearch
/-! ## JavaScript numbers and values -/

/-- A JavaScript number: a finite value (modelled exactly as a rational)
or one of the non-finite values `NaN`, `Infinity`, `-Infinity`. -/
inductive JSNum where
  | finite (q : ℚ)
  | nan
  | posInf
  | negInf
deriving DecidableEq, Repr


/-- `Number.isFinite`. -/
def JSNum.isFinite : JSNum → Bool
  | .finite _ => true
  | _ => false


/-- The rational value of a finite JavaScript number. -/
def JSNum.ratVal? : JSNum → Option ℚ
  | .finite q => some q
  | _ => none


/-- JavaScript `<` on numbers: any comparison involving `NaN` is false. -/
def JSNum.ltB : JSNum → JSNum → Bool
  | .nan, _ => false
  | _, .nan => false
  | .finite x, .finite y => decide (x < y)
  | .finite _, .posInf => true
  | .finite _, .negInf => false
  | .negInf, .negInf => false
  | .negInf, _ => true
  | .posInf, _ => false


/-- JavaScript `>` on numbers. -/
def JSNum.gtB (a b : JSNum) : Bool := JSNum.ltB b a


/-- A JavaScript value as it can appear in a DynamoDB document item.
Arrays are not a constructor here: every attribute the code consults
with `Array.isArray` is modelled separately as an `Option (List _)`
field of the item structure.  `obj` stands for any other object. -/
inductive JSVal where
  | undef
  | null
  | str (s : String)
  | num (n : JSNum)
  | bigint (i : ℤ)
  | bool (b : Bool)
  | obj
deriving DecidableEq, Repr


/-- Is a value `null` or `undefined` (the `??` test)? -/
def JSVal.isNullish : JSVal → Bool
  | .undef => true
  | .null => true
  | _ => false


/-- Rendering of a JavaScript number by `toString`.  Finite non-integral
values are rendered via Lean's rational notation; the claims below never
depend on the exact digits. -/
def JSNum.render : JSNum → String
  | .finite q => toString q
  | .nan => "NaN"
  | .posInf => "Infinity"
  | .negInf => "-Infinity"


/-! ## `src/lib/dynamo.ts` -/

/-- The character class `[a-z0-9]` of the slug regex, by code point. -/
def isLowerAlnum (c : Char) : Bool :=
  (97 ≤ c.toNat && c.toNat ≤ 122) || (48 ≤ c.toNat && c.toNat ≤ 57)


/-- A character kept unchanged by the slug pipeline: `[a-z0-9]` or `-`. -/
def isSlugChar (c : Char) : Bool := isLowerAlnum c || c == '-'


/-- The JavaScript whitespace characters removed by `String.prototype.trim`
(restricted to the ASCII ones; no slug character is whitespace in any case). -/
def isJsWs (c : Char) : Bool :=
  c == ' ' || c == '\t' || c == '\n' || c == '\r' || c == '\x0b' || c == '\x0c'


/-- `String.prototype.trim` on the character list. -/
def jsTrim (l : List Char) : List Char :=
  ((l.dropWhile isJsWs).reverse.dropWhile isJsWs).reverse


/-- `String.prototype.toLowerCase`, character by character.  Exact on
ASCII; code points outside `A`-`Z` are left unchanged (the non-ASCII
case-mapping exceptions of full Unicode are not modelled — any non-ASCII
character is collapsed to `-` by the next step of the pipeline anyway). -/
def jsToLower (c : Char) : Char :=
  if 65 ≤ c.toNat && c.toNat ≤ 90 then Char.ofNat (c.toNat + 32) else c


/-- `replace(/[^a-z0-9]+/g, "-")`: every maximal run of characters outside
`[a-z0-9]` becomes a single `-`.  The boolean argument records whether the
previous character was part of such a run. -/
def collapseRuns : Bool → List Char → List Char
  | _, [] => []
  | inRun, c :: rest =>
    if isLowerAlnum c then c :: collapseRuns false rest
    else if inRun then collapseRuns true rest
    else '-' :: collapseRuns true rest


/-- `replace(/^-+|-+$/g, "")`: strip leading and trailing runs of `-`. -/
def stripDashes (l : List Char) : List Char :=
  (((l.dropWhile (· == '-')).reverse.dropWhile (· == '-'))).reverse


/-- The slug pipeline of `normalizeLogoName` on a character list. -/
def normalizeChars (l : List Char) : List Char :=
  stripDashes (collapseRuns false ((jsTrim l).map jsToLower))


/-- `normalizeLogoName` from `src/lib/dynamo.ts`:
`name.trim().toLowerCase().replace(/[^a-z0-9]+/g, "-").replace(/^-+|-+$/g, "")`. -/
def normalizeLogoName (name : String) : String :=
  String.mk (normalizeChars name.data)


/-- Strip one trailing `/` — `replace(/\/$/, "")`. -/
def stripTrailingSlash (s : String) : String :=
  match s.data.reverse with
  | '/' :: rest => String.mk rest.reverse
  | _ => s


/-- `resolvePublicUrl` from `src/lib/dynamo.ts`.  The environment variable
`S3_PUBLIC_BASE_URL` is the explicit first argument. -/
def resolvePublicUrl (base : Option String) (publicUrl s3Key : Option String) :
    Option String :=
  match publicUrl with
  | some p =>
    if p ≠ "" then some p
    else resolveFromKey base s3Key
  | none => resolveFromKey base s3Key
where
  /-- The fall-through of `resolvePublicUrl` once `publicUrl` is falsy. -/
  resolveFromKey (base : Option String) (s3Key : Option String) : Option String :=
    match s3Key with
    | none => none
    | some k =>
      if k = "" then none
      else
        match base with
        | none => none
        | some b =>
          if b = "" then none
          else some (stripTrailingSlash b ++ "/" ++ k)


/-! ### Shape of slugs produced by `normalizeLogoName` -/

/-- No two adjacent dashes. -/
def NoDD (l : List Char) : Prop := l.Chain' (fun a b => ¬(a = '-' ∧ b = '-'))


/-! ## Helpers shared by both repository files (`asString`, `asNumber`) -/

/-- `asString`: strings pass through, numbers and bigints are stringified,
everything else is `undefined`. -/
def asString : JSVal → Option String
  | .str s => some s
  | .num n => some n.render
  | .bigint i => some (toString i)
  | _ => none


/-- The `Number(value)` coercion applied by `asNumber` to non-number values.
Modelled on the value shapes the repository actually stores: `null` converts
to `0`, booleans to `0`/`1`, bigints exactly; strings and other objects are
conservatively modelled as unparseable (`NaN`), which `asNumber` rejects. -/
def toNumber : JSVal → JSNum
  | .num n => n
  | .null => .finite 0
  | .bool false => .finite 0
  | .bool true => .finite 1
  | .bigint i => .finite (i : ℚ)
  | _ => .nan


/-- `asNumber`: `typeof value === "number" ? value : Number(value)`, kept
only when `Number.isFinite`. -/
def asNumber (v : JSVal) : Option JSNum :=
  let num := match v with
    | .num n => n
    | _ => toNumber v
  if num.isFinite then some num else none


/-- Truthiness of a `string | undefined` (the `if (!x)` guards). -/
def strTruthy : Option String → Bool
  | some s => s != ""
  | none => false


/-- `asString` followed by the `if (!x) continue` truthiness guard. -/
def truthyString (v : JSVal) : Option String :=
  (asString v).bind (fun s => if s = "" then none else some s)


/-- `a ?? b` on raw values. -/
def jsCoalesce (a b : JSVal) : JSVal := if a.isNullish then b else a


/-! ## JavaScript `Map` on string keys, as an insertion-ordered entry list -/

/-- `new Map(entries).get k`: the value of the last entry inserted for `k`. -/
def jsMapGet {α : Type} (entries : List (String × α)) (k : String) : Option α :=
  (entries.reverse.find? (fun e => e.1 == k)).map (·.2)


/-- `map.get k` for a map built by `map.set` (keys unique): first match. -/
def mapGet {α : Type} (m : List (String × α)) (k : String) : Option α :=
  (m.find? (fun e => e.1 == k)).map (·.2)


/-- `map.set k v`: replace in place if present, else append. -/
def mapSet {α : Type} (m : List (String × α)) (k : String) (v : α) :
    List (String × α) :=
  if m.any (fun e => e.1 == k) then
    m.map (fun e => if e.1 == k then (k, v) else e)
  else m ++ [(k, v)]


/-! ## `Array.prototype.sort`, modelled as stable top-down merge sort -/

/-- Stable merge: take from the left run when the comparator does not order
the right element strictly earlier. -/
def jsMerge {α : Type} (le : α → α → Bool) : List α → List α → List α
  | [], r => r
  | l, [] => l
  | a :: l, b :: r =>
    if le a b then a :: jsMerge le l (b :: r) else b :: jsMerge le (a :: l) r
termination_by l r => l.length + r.length


/-- Top-down stable merge sort: the model of `Array.prototype.sort` with
comparator `cmp`, where `le a b` stands for `cmp(a,b) <= 0`. -/
def jsSortBy {α : Type} (le : α → α → Bool) : List α → List α
  | [] => []
  | [a] => [a]
  | a :: b :: rest =>
    jsMerge le
      (jsSortBy le ((a :: b :: rest).take (((a :: b :: rest).length + 1) / 2)))
      (jsSortBy le ((a :: b :: rest).drop (((a :: b :: rest).length + 1) / 2)))
termination_by l => l.length
decreasing_by
  · simp [List.length_take]
    omega
  · simp
    omega


/-! ## Record types of the repository layer -/

/-- A `{x, y}` point of a bounding polygon, as mapped by the repository. -/
structure Pt where
  x : JSNum
  y : JSNum
deriving DecidableEq, Repr


/-- The `LogoDetection` type of the repository files. -/
structure LogoDetection where
  name : String
  slug : String
  confidence : JSNum
  boundingPoly : Option (List Pt) := none
  detectionIndex : Option JSNum := none
deriving DecidableEq, Repr


/-- The `PhotoRecord` type of the repository files. -/
structure PhotoRecord where
  id : String
  imageUrl : Option String
  s3Key : Option String := none
  logos : List LogoDetection
  createdAt : Option String := none
  matchConfidence : Option JSNum := none
deriving DecidableEq, Repr


/-! ## Decoupled three-table database (`Photos`, `PhotoLogos`) -/

/-- A raw `{x, y}` element of a stored `boundingPoly` array. -/
structure RawPoint where
  x : JSVal := .undef
  y : JSVal := .undef
deriving DecidableEq, Repr


/-- A raw item of the `Photos` table (`photoId` is the partition key). -/
structure PhotoItem where
  photoId : JSVal := .undef
  s3Key : JSVal := .undef
  publicUrl : JSVal := .undef
  createdAt : JSVal := .undef
deriving DecidableEq, Repr


/-- A raw item of the `PhotoLogos` mapping table
(`logoSlug` partition key, `sortKey` range key). -/
structure MappingItem where
  logoSlug : JSVal := .undef
  sortKey : JSVal := .undef
  photoId : JSVal := .undef
  logoName : JSVal := .undef
  confidence : JSVal := .undef
  detectionIndex : JSVal := .undef
  boundingPoly : Option (List RawPoint) := none
deriving DecidableEq, Repr


/-- The decoupled database state: the two tables read by the repository. -/
structure DecoupledDB where
  photos : List PhotoItem
  photoLogos : List MappingItem
deriving DecidableEq, Repr


/-- `mapPhotoItem` of the decoupled repository.  `base` is the
`S3_PUBLIC_BASE_URL` environment variable read by `resolvePublicUrl`. -/
def mapPhotoItem (base : Option String) (item : PhotoItem) : PhotoRecord :=
  let photoId := (asString item.photoId).getD ""
  let s3Key := asString item.s3Key
  let publicUrl := asString item.publicUrl
  { id := photoId
    imageUrl := resolvePublicUrl base publicUrl s3Key
    s3Key := s3Key
    logos := []
    createdAt := asString item.createdAt }


/-- `mapLogoMapping` of the decoupled repository. -/
def mapLogoMapping (item : MappingItem) : LogoDetection :=
  let name := (asString item.logoName).getD ""
  { name := name
    slug := (asString item.logoSlug).getD (normalizeLogoName name)
    confidence := (asNumber item.confidence).getD (.finite 0)
    detectionIndex := asNumber item.detectionIndex
    boundingPoly := item.boundingPoly.map (List.map (fun p =>
      ⟨(asNumber p.x).getD (.finite 0), (asNumber p.y).getD (.finite 0)⟩)) }


/-- `localeCompare`, modelled as code-point string comparison. -/
def localeCmp (a b : String) : ℤ :=
  match compare a b with
  | .lt => -1
  | .eq => 0
  | .gt => 1


/-- The sort comparator of `fetchAllPhotos` (both variants).  `parse` is
`new Date(_).getTime()`; `none` stands for an invalid date (`NaN`), in
which case the ECMAScript `SortCompare` treats the comparator result as
`+0`. -/
def photoCompare (parse : String → Option ℤ) (a b : PhotoRecord) : ℤ :=
  match a.createdAt, b.createdAt with
  | some ca, some cb =>
    if ca ≠ "" ∧ cb ≠ "" then
      match parse cb, parse ca with
      | some tb, some ta => tb - ta
      | _, _ => 0
    else localeCmp a.id b.id
  | _, _ => localeCmp a.id b.id


/-- The comparator as the boolean `le` fed to the sort model. -/
def photoLe (parse : String → Option ℤ) (a b : PhotoRecord) : Bool :=
  decide (photoCompare parse a b ≤ 0)


/-- Index of the last photo holding a given id (`new Map` keeps the last
entry for a duplicated key, so only that record object is mutated by the
grouping loop). -/
def lastIdxWith (ids : List String) (pid : String) : Option ℕ :=
  ((ids.enum.filter (fun e => e.2 == pid)).getLast?).map (·.1)


/-- `fetchAllPhotos` of the decoupled repository: scan `Photos`, group the
scanned `PhotoLogos` detections onto the (last) record of each photo id,
sort by the creation-time comparator. -/
def fetchAllPhotosDec (base : Option String) (parse : String → Option ℤ)
    (db : DecoupledDB) : List PhotoRecord :=
  if db.photos = [] then []
  else
    let photos := db.photos.map (mapPhotoItem base)
    let withLogos := photos.enum.map (fun e =>
      if lastIdxWith (photos.map (·.id)) e.2.id = some e.1 then
        { e.2 with logos := (db.photoLogos.filter (fun it =>
            match truthyString it.photoId with
            | some pid => pid == e.2.id
            | none => false)).map mapLogoMapping }
      else e.2)
    jsSortBy (photoLe parse) withLogos


/-! ## `fetchPhotosByLogo` (decoupled) -/

/-- The running accumulator of the mapping-items loop: the unique photo ids
in first-occurrence order, and the per-photo running maximum confidence. -/
structure MappingAccum where
  uniquePhotoIds : List String
  photoIdConfidences : List (String × JSNum)
deriving DecidableEq, Repr


/-- One iteration of the mapping-items loop of `fetchPhotosByLogo`
(common to both repository variants), on the extracted
`(photoId?, asNumber confidence)` pair of the item. -/
def collectStep (acc : MappingAccum) (pr : Option String × Option JSNum) :
    MappingAccum :=
  match pr.1 with
  | none => acc
  | some photoId =>
    let ids := if photoId ∈ acc.uniquePhotoIds then acc.uniquePhotoIds
      else acc.uniquePhotoIds ++ [photoId]
    match pr.2 with
    | none => ⟨ids, acc.photoIdConfidences⟩
    | some confidence =>
      match mapGet acc.photoIdConfidences photoId with
      | none => ⟨ids, mapSet acc.photoIdConfidences photoId confidence⟩
      | some existing =>
        if confidence.gtB existing then
          ⟨ids, mapSet acc.photoIdConfidences photoId confidence⟩
        else ⟨ids, acc.photoIdConfidences⟩


/-- The whole mapping-items loop. -/
def collectMappings (prs : List (Option String × Option JSNum)) : MappingAccum :=
  prs.foldl collectStep ⟨[], []⟩


/-- The DynamoDB `Query` on the `PhotoLogos` table:
`KeyConditionExpression: "logoSlug = :slug"`. -/
def queryMappingsDec (db : DecoupledDB) (slug : String) : List MappingItem :=
  db.photoLogos.filter (fun it => it.logoSlug == .str slug)


/-- `fetchPhotosByLogo` of the decoupled repository. -/
def fetchPhotosByLogoDec (base : Option String) (db : DecoupledDB)
    (logoNameOrSlug : String) : List PhotoRecord :=
  let slug := normalizeLogoName logoNameOrSlug
  let mappingItems := queryMappingsDec db slug
  if mappingItems = [] then []
  else
    let acc := collectMappings (mappingItems.map (fun it =>
      (truthyString it.photoId, asNumber it.confidence)))
    if acc.uniquePhotoIds = [] then []
    else
      let photoItems := db.photos.filter (fun it =>
        acc.uniquePhotoIds.any (fun pid => it.photoId == .str pid))
      let photoMap := photoItems.filterMap (fun it =>
        match truthyString it.photoId with
        | none => none
        | some pid => some (pid, mapPhotoItem base it))
      acc.uniquePhotoIds.filterMap (fun pid =>
        match jsMapGet photoMap pid with
        | none => none
        | some photo => some
            { photo with
              logos := (mappingItems.filter
                  (fun it => asString it.photoId == some pid)).map mapLogoMapping
              matchConfidence := mapGet acc.photoIdConfidences pid })


/-! ## Single-table database -/

/-- A raw element of a stored detection's `boundingPoly` array; `idx0`/`idx1`
model the `point[0]`/`point[1]` index accesses of the fallback. -/
structure STPoint where
  x : JSVal := .undef
  y : JSVal := .undef
  idx0 : JSVal := .undef
  idx1 : JSVal := .undef
deriving DecidableEq, Repr


/-- A raw element of the stored `detections` array of a photo item. -/
structure STDet where
  name : JSVal := .undef
  displayName : JSVal := .undef
  confidence : JSVal := .undef
  score : JSVal := .undef
  detectionIndex : JSVal := .undef
  boundingPoly : Option (List STPoint) := none
deriving DecidableEq, Repr


/-- A raw item of the single table (`PK` partition key, `SK` range key). -/
structure STItem where
  PK : JSVal := .undef
  SK : JSVal := .undef
  photoId : JSVal := .undef
  s3Key : JSVal := .undef
  publicUrl : JSVal := .undef
  createdAt : JSVal := .undef
  confidence : JSVal := .undef
  detections : Option (List STDet) := none
deriving DecidableEq, Repr


/-- The single-table database state. -/
structure SingleTableDB where
  items : List STItem
deriving DecidableEq, Repr


/-- One element of the `detections` mapping of the single-table
`mapPhotoItem` (returns `null` for a nameless detection, filtered out). -/
def mapDetectionST (logo : STDet) : Option LogoDetection :=
  let name := (asString logo.name).getD ((asString logo.displayName).getD "")
  if name = "" then none
  else some
    { name := name
      slug := normalizeLogoName name
      confidence := (asNumber (jsCoalesce logo.confidence logo.score)).getD (.finite 0)
      detectionIndex := asNumber logo.detectionIndex
      boundingPoly := logo.boundingPoly.map (List.map (fun p =>
        ⟨(asNumber (jsCoalesce p.x p.idx0)).getD (.finite 0),
         (asNumber (jsCoalesce p.y p.idx1)).getD (.finite 0)⟩)) }


/-- `mapPhotoItem` of the single-table repository. -/
def mapPhotoItemST (base : Option String) (item : STItem) : PhotoRecord :=
  let detectedLogos := match item.detections with
    | some dets => dets.filterMap mapDetectionST
    | none => []
  let s3Key := asString item.s3Key
  let publicUrl := asString item.publicUrl
  { id := (asString item.SK).getD ((asString item.photoId).getD "")
    imageUrl := resolvePublicUrl base publicUrl s3Key
    s3Key := s3Key
    logos := detectedLogos
    createdAt := asString item.createdAt }


/-- `fetchAllPhotos` of the single-table repository: scan the whole table,
map every item, sort by the creation-time comparator. -/
def fetchAllPhotosST (base : Option String) (parse : String → Option ℤ)
    (db : SingleTableDB) : List PhotoRecord :=
  jsSortBy (photoLe parse) (db.items.map (mapPhotoItemST base))


/-- The photo-id extraction of the single-table mapping loop:
`asString(item.photoId) ?? (sortKey ? sortKey.split("#")[0] : undefined)`,
followed by the `if (!photoId) continue` guard. -/
def pidOfSTMapping (item : STItem) : Option String :=
  let sortKey := asString item.SK
  let photoId := match asString item.photoId with
    | some s => some s
    | none =>
      match sortKey with
      | some sk =>
        if sk = "" then none
        else some (String.mk (sk.data.takeWhile (fun c => !(c == '#'))))
      | none => none
  match photoId with
  | some s => if s = "" then none else some s
  | none => none


/-- The DynamoDB `Query` on the single table: `PK = "LOGO#" + slug`. -/
def queryMappingsST (db : SingleTableDB) (slug : String) : List STItem :=
  db.items.filter (fun it => it.PK == .str ("LOGO#" ++ slug))


/-- `fetchPhotosByLogo` of the single-table repository. -/
def fetchPhotosByLogoST (base : Option String) (db : SingleTableDB)
    (logoNameOrSlug : String) : List PhotoRecord :=
  let slug := normalizeLogoName logoNameOrSlug
  let mappings := queryMappingsST db slug
  if mappings = [] then []
  else
    let acc := collectMappings (mappings.map (fun it =>
      (pidOfSTMapping it, asNumber it.confidence)))
    if acc.uniquePhotoIds = [] then []
    else
      let photoItems := db.items.filter (fun it =>
        it.PK == .str "PHOTO" && acc.uniquePhotoIds.any (fun pid => it.SK == .str pid))
      let photoMap := photoItems.filterMap (fun it =>
        match asString it.SK with
        | none => none
        | some sortKey =>
          if sortKey = "" then none else some (sortKey, mapPhotoItemST base it))
      acc.uniquePhotoIds.filterMap (fun pid =>
        match jsMapGet photoMap pid with
        | none => none
        | some photo => some
            { photo with
              logos := photo.logos
              matchConfidence := mapGet acc.photoIdConfidences pid })


/-! ## API routes -/

/-- The body of a `NextResponse.json` reply: either the success payload or
an object with a generic `error` field. -/
inductive RouteBody (α : Type) where
  | payload (a : α)
  | errorMsg (msg : String)
deriving DecidableEq, Repr


/-- A route reply together with the messages passed to `console.error`. -/
structure RouteResponse (α : Type) where
  status : ℕ
  body : RouteBody α
  logged : List String
deriving DecidableEq, Repr


/-- `GET` of `src/app/api/photos/route.ts`; `fetch` is the settled result
of `fetchAllPhotos()`. -/
def photosRouteGET {ε : Type} (fetch : Except ε (List PhotoRecord)) :
    RouteResponse (List PhotoRecord) :=
  match fetch with
  | .ok photos => ⟨200, .payload photos, []⟩
  | .error _ => ⟨500, .errorMsg "Unable to load photos", ["Failed to load photos"]⟩


/-- The `LogoSummary` type of the decoupled repository file. -/
structure LogoSummary where
  slug : String
  name : String
  totalPhotos : JSNum
  topConfidence : Option JSNum := none
deriving DecidableEq, Repr


/-- `GET` of `src/app/api/logos/route.ts`; `fetch` is the settled result
of `fetchAllLogos()`. -/
def logosRouteGET {ε : Type} (fetch : Except ε (List LogoSummary)) :
    RouteResponse (List LogoSummary) :=
  match fetch with
  | .ok logos => ⟨200, .payload logos, []⟩
  | .error _ => ⟨500, .errorMsg "Unable to load logos", ["Failed to load logos"]⟩


/-- `GET` of the photos-by-logo route: 400 on a falsy path parameter, else
normalize the parameter and call `fetchPhotosByLogo`; `fetch` is the
(possibly throwing) repository call. -/
def photosByLogoRouteGET {ε : Type} (logoParam : String)
    (fetch : String → Except ε (List PhotoRecord)) :
    RouteResponse (String × List PhotoRecord) :=
  if logoParam = "" then ⟨400, .errorMsg "Logo name is required", []⟩
  else
    match fetch (normalizeLogoName logoParam) with
    | .ok photos => ⟨200, .payload (normalizeLogoName logoParam, photos), []⟩
    | .error _ =>
      ⟨500, .errorMsg "Unable to load photos for logo", ["Failed to load photos by logo"]⟩


/-! ## Ingestion scripts (decoupled `lambda/ingest-logos-decoupled.ts` and
single-table `lambda/ingest-logos.ts`; the two share every definition
modelled here except the shape of the written items) -/

/-- `replace(/\.[^/.]+$/, "")`: strip a trailing `.extension` (a dot
followed by at least one character that is neither `.` nor `/`, at the
end of the string). -/
def stripExtension (l : List Char) : List Char :=
  let r := l.reverse
  let ext := r.takeWhile (fun c => !(c == '.') && !(c == '/'))
  match r.drop ext.length with
  | '.' :: tail => if ext = [] then l else tail.reverse
  | _ => l


/-- `replace(/[^a-zA-Z0-9_-]/g, "-")`: each character outside the class
becomes one `-` (no run collapsing — the regex has no `+`). -/
def sanitizeId (l : List Char) : List Char :=
  l.map (fun c =>
    if (97 ≤ c.toNat && c.toNat ≤ 122) || (65 ≤ c.toNat && c.toNat ≤ 90) ||
        (48 ≤ c.toNat && c.toNat ≤ 57) || c == '_' || c == '-' then c else '-')


/-- `keyToPhotoId` of the ingestion scripts; `pre` is the `S3_PREFIX`
environment variable.  `key.startsWith(pre)` and `key.slice(pre.length)`
are written on the character lists. -/
def keyToPhotoId (pre key : String) : String :=
  let trimmed := if key.data.take pre.data.length = pre.data
    then String.mk (key.data.drop pre.data.length) else key
  let withoutExt := String.mk (stripExtension trimmed.data)
  String.mk (sanitizeId withoutExt.data)


/-- The per-object filter of `listPhotos`:
`object.Key && !object.Key.endsWith("/")`. -/
def acceptedByListing (key : String) : Bool :=
  key != "" && !(key.data.getLast? == some '/')


/-- A raw vertex of the Vision API bounding polygon (protobuf optionals). -/
structure RawVertex where
  x : Option JSNum := none
  y : Option JSNum := none
deriving DecidableEq, Repr


/-- The Vision API bounding polygon. -/
structure VisionPoly where
  vertices : Option (List RawVertex) := none
deriving DecidableEq, Repr


/-- One element of `result.logoAnnotations` from the Vision API.  `score`
is a raw JavaScript number: the declared protobuf type admits any double,
so non-finite values are representable. -/
structure VisionLogoAnnot where
  description : Option String := none
  score : Option JSNum := none
  boundingPoly : Option VisionPoly := none
deriving DecidableEq, Repr


/-- The `LogoDetection` type of the ingestion scripts (`detectionIndex`
is always present there). -/
structure IngestDetection where
  name : String
  slug : String
  confidence : JSNum
  boundingPoly : Option (List Pt) := none
  detectionIndex : ℕ
deriving DecidableEq, Repr


/-- The pure tail of `detectLosForKey` sits behind the S3 download and
the Vision call: map the returned logo annotations to detections.  Kept
as `detectLogosForKey` over the annotation list. -/
def detectLogosForKey (annots : List VisionLogoAnnot) : List IngestDetection :=
  ((annots.filter (fun a => strTruthy a.description)).enum).map (fun e =>
    let name := e.2.description.getD ""
    { name := name
      slug := normalizeLogoName name
      confidence := e.2.score.getD (.finite 0)
      boundingPoly := (e.2.boundingPoly.bind (·.vertices)).map (List.map (fun v =>
        ⟨v.x.getD (.finite 0), v.y.getD (.finite 0)⟩))
      detectionIndex := e.1 })


/-! ### `writeMappingBatch` retry loop -/

/-- The retry loop of `writeMappingBatch`: the environment oracle `resp i`
is the `UnprocessedItems` list reported by the `i`-th `BatchWriteCommand`
response.  Returns the submissions made after the first one; `fuel`
bounds the unrolling (the loop itself has no bound — termination is
exactly the claim that some response is eventually empty). -/
def writeMappingLoop {α : Type} (resp : ℕ → List α) : ℕ → ℕ → List (List α)
  | _, 0 => []
  | i, fuel + 1 =>
    if (resp i).isEmpty then [] else resp i :: writeMappingLoop resp (i + 1) fuel


/-- `writeMappingBatch` as the list of successive `BatchWriteCommand`
submissions: nothing for an empty batch, else the batch itself followed
by the successively reported unprocessed items. -/
def writeMappingBatch {α : Type} (resp : ℕ → List α) (fuel : ℕ)
    (batch : List α) : List (List α) :=
  if batch.isEmpty then [] else batch :: writeMappingLoop resp 0 fuel


/-! ### Ingestion `main` loop -/

/-- The observable state of an ingestion run: the successfully stored
`(key, detections)` pairs and the console log. -/
structure IngestState where
  saved : List (String × List IngestDetection)
  logs : List String
deriving DecidableEq, Repr


/-- One iteration of `main`'s `for` loop: `try { detect; save; log } catch
{ log and continue }`.  `detect` and `save` are the outcome oracles of the
two awaited calls. -/
def ingestStep {ε : Type} (detect : String → Except ε (List IngestDetection))
    (save : String → List IngestDetection → Except ε Unit)
    (st : IngestState) (key : String) : IngestState :=
  match detect key with
  | .error _ => ⟨st.saved, st.logs ++ ["Failed to process " ++ key]⟩
  | .ok logos =>
    match save key logos with
    | .error _ => ⟨st.saved, st.logs ++ ["Failed to process " ++ key]⟩
    | .ok _ => ⟨st.saved ++ [(key, logos)], st.logs ++ ["Stored logos for " ++ key]⟩


/-- The whole `main` loop over the listed keys. -/
def ingestMain {ε : Type} (detect : String → Except ε (List IngestDetection))
    (save : String → List IngestDetection → Except ε Unit)
    (keys : List String) : IngestState :=
  keys.foldl (ingestStep detect save) ⟨[], []⟩


/-- The per-key outcome: what `main` stores for a key whose own detection
and save both succeed, `none` when either throws. -/
def processOutcome {ε : Type} (detect : String → Except ε (List IngestDetection))
    (save : String → List IngestDetection → Except ε Unit)
    (key : String) : Option (String × List IngestDetection) :=
  match detect key with
  | .error _ => none
  | .ok logos =>
    match save key logos with
    | .error _ => none
    | .ok _ => some (key, logos)


/-! ### Database command traces (for the no-delete claim) -/

/-- The kinds of DynamoDB commands. -/
inductive DbCmd where
  | scan
  | query
  | batchGet
  | put
  | batchPut
  | update
  | deleteItem
  | batchDelete
deriving DecidableEq, Repr


/-- The six command kinds the system is claimed to restrict itself to. -/
def allowedCmds : List DbCmd :=
  [.put, .batchPut, .update, .scan, .query, .batchGet]


/-- Command trace of the decoupled `fetchAllPhotos`: a scan of `Photos`,
then (if it returned items) a scan of `PhotoLogos`. -/
def fetchAllPhotosDecCmds (db : DecoupledDB) : List DbCmd :=
  if db.photos = [] then [.scan] else [.scan, .scan]


/-- Command trace of the decoupled `fetchAllLogos`: one scan. -/
def fetchAllLogosDecCmds : List DbCmd := [.scan]


/-- Command trace of the decoupled `fetchPhotosByLogo`: the query, then
(when any usable mapping was found) the batch get. -/
def fetchPhotosByLogoDecCmds (db : DecoupledDB) (logoNameOrSlug : String) :
    List DbCmd :=
  let mappingItems := queryMappingsDec db (normalizeLogoName logoNameOrSlug)
  if mappingItems = [] then [.query]
  else if (collectMappings (mappingItems.map (fun it =>
      (truthyString it.photoId, asNumber it.confidence)))).uniquePhotoIds = [] then
    [.query]
  else [.query, .batchGet]


/-- `chunk(xs, 25)` of the ingestion scripts. -/
def chunk25 {α : Type} : List α → List (List α)
  | [] => []
  | a :: rest => ((a :: rest).take 25) :: chunk25 ((a :: rest).drop 25)
termination_by l => l.length
decreasing_by
  simp
  omega


/-- Command trace of one `writeMappingBatch` call: one `BatchWriteCommand`
(containing only `PutRequest`s) per submission. -/
def writeMappingBatchCmds {α : Type} (resp : ℕ → List α) (fuel : ℕ)
    (batch : List α) : List DbCmd :=
  (writeMappingBatch resp fuel batch).map (fun _ => DbCmd.batchPut)


/-- The per-slug summary aggregation of both `savePhoto` variants:
running maximum confidence and first name per slug. -/
def slugSummariesOf (logos : List IngestDetection) :
    List (String × JSNum × String) :=
  logos.foldl (fun m logo =>
    match mapGet m logo.slug with
    | none => mapSet m logo.slug (logo.confidence, logo.name)
    | some cur =>
      if logo.confidence.gtB cur.1 then mapSet m logo.slug (logo.confidence, logo.name)
      else m) []


/-- Command trace of `savePhotoDecoupled`: the `Photos` put, then (when
there are detections) the chunked mapping batch writes and one summary
update per distinct slug.  `resp j` is the unprocessed-items oracle of
the `j`-th chunk's retry loop. -/
def savePhotoDecoupledCmds (resp : ℕ → ℕ → List IngestDetection) (fuel : ℕ)
    (logos : List IngestDetection) : List DbCmd :=
  DbCmd.put ::
    (if logos = [] then []
     else
       ((chunk25 logos).enum.flatMap (fun e =>
         writeMappingBatchCmds (resp e.1) fuel e.2)) ++
       (slugSummariesOf logos).map (fun _ => DbCmd.update))


/-- Command trace of the single-table `savePhoto`: identical command kinds
(one photo put, chunked mapping batch puts, one update per slug), all on
the single table. -/
def savePhotoSingleCmds (resp : ℕ → ℕ → List IngestDetection) (fuel : ℕ)
    (logos : List IngestDetection) : List DbCmd :=
  DbCmd.put ::
    (if logos = [] then []
     else
       ((chunk25 logos).enum.flatMap (fun e =>
         writeMappingBatchCmds (resp e.1) fuel e.2)) ++
       (slugSummariesOf logos).map (fun _ => DbCmd.update))


/-! ## Fold invariants of the mapping-items loop -/

def dedupFirst (l : List String) : List String :=
  l.foldl (fun ids x => if x ∈ ids then ids else ids ++ [x]) []


def finiteConfsOf (prs : List (Option String × Option JSNum)) (pid : String) : List ℚ :=
  prs.filterMap (fun pr => if pr.1 = some pid then pr.2.bind JSNum.ratVal? else none)


def listMaxQ : List ℚ → Option ℚ
  | [] => none
  | q :: t =>
    match listMaxQ t with
    | none => some q
    | some m => some (max q m)


def optMaxQ : Option ℚ → Option ℚ → Option ℚ
  | none, b => b
  | some x, none => some x
  | some x, some y => some (max x y)


def confQAt (m : List (String × JSNum)) (pid : String) : Option ℚ :=
  (mapGet m pid).bind JSNum.ratVal?


/-! ## Named components of `fetchPhotosByLogo`, for stating the claims -/

/-- The `(photoId?, asNumber confidence)` pairs the mapping loop of the
decoupled `fetchPhotosByLogo` runs over. -/
def mappingPairsDec (db : DecoupledDB) (logoNameOrSlug : String) :
    List (Option String × Option JSNum) :=
  (queryMappingsDec db (normalizeLogoName logoNameOrSlug)).map (fun it =>
    (truthyString it.photoId, asNumber it.confidence))


/-- The photo map built by the decoupled `fetchPhotosByLogo` from the
batch-get responses. -/
def photoMapDec (base : Option String) (db : DecoupledDB)
    (logoNameOrSlug : String) : List (String × PhotoRecord) :=
  (db.photos.filter (fun it =>
    (collectMappings (mappingPairsDec db logoNameOrSlug)).uniquePhotoIds.any
      (fun pid => it.photoId == .str pid))).filterMap (fun it =>
    match truthyString it.photoId with
    | none => none
    | some pid => some (pid, mapPhotoItem base it))


/-- The record assembly of the decoupled `fetchPhotosByLogo` for one
unique photo id. -/
def buildDec (base : Option String) (db : DecoupledDB)
    (logoNameOrSlug : String) (pid : String) : Option PhotoRecord :=
  match jsMapGet (photoMapDec base db logoNameOrSlug) pid with
  | none => none
  | some photo => some
      { photo with
        logos := ((queryMappingsDec db (normalizeLogoName logoNameOrSlug)).filter
            (fun it => asString it.photoId == some pid)).map mapLogoMapping
        matchConfidence := mapGet
          (collectMappings (mappingPairsDec db logoNameOrSlug)).photoIdConfidences pid }


/-- The `(photoId?, asNumber confidence)` pairs of the single-table
`fetchPhotosByLogo` mapping loop. -/
def mappingPairsST (db : SingleTableDB) (logoNameOrSlug : String) :
    List (Option String × Option JSNum) :=
  (queryMappingsST db (normalizeLogoName logoNameOrSlug)).map (fun it =>
    (pidOfSTMapping it, asNumber it.confidence))


/-- The photo map built by the single-table `fetchPhotosByLogo`. -/
def photoMapST (base : Option String) (db : SingleTableDB)
    (logoNameOrSlug : String) : List (String × PhotoRecord) :=
  (db.items.filter (fun it =>
    it.PK == .str "PHOTO" &&
      (collectMappings (mappingPairsST db logoNameOrSlug)).uniquePhotoIds.any
        (fun pid => it.SK == .str pid))).filterMap (fun it =>
    match asString it.SK with
    | none => none
    | some sortKey =>
      if sortKey = "" then none else some (sortKey, mapPhotoItemST base it))


/-- The record assembly of the single-table `fetchPhotosByLogo`. -/
def buildST (base : Option String) (db : SingleTableDB)
    (logoNameOrSlug : String) (pid : String) : Option PhotoRecord :=
  match jsMapGet (photoMapST base db logoNameOrSlug) pid with
  | none => none
  | some photo => some
      { photo with
        logos := photo.logos
        matchConfidence := mapGet
          (collectMappings (mappingPairsST db logoNameOrSlug)).photoIdConfidences pid }


/-- The creation time of a photo record, as the comparator sees it:
defined only when `createdAt` is present, truthy, and parses. -/
def timeOf (parse : String → Option ℤ) (p : PhotoRecord) : Option ℤ :=
  match p.createdAt with
  | some c => if c ≠ "" then parse c else none
  | none => none


/-- A DynamoDB string key attribute that is present and non-empty (the
constraint DynamoDB itself enforces on key attributes). -/
def nonEmptyStrKey : JSVal → Bool
  | .str s => s != ""
  | _ => false


/-- A Vision annotation whose score, when present, is a finite number. -/
def finiteScore (a : VisionLogoAnnot) : Bool :=
  match a.score with
  | some s => s.isFinite
  | none => true


def db5W : DecoupledDB := ⟨[{ photoId := JSVal.str "p1" }], []⟩


def pW5 : PhotoRecord := { id := "p1", imageUrl := none, logos := [] }


/-- Concrete database for exercising the by-logo claims. -/
def db9W : DecoupledDB :=
  ⟨[{ photoId := JSVal.str "p1" }],
   [{ logoSlug := JSVal.str "nike", photoId := JSVal.str "p1",
      confidence := JSVal.num (JSNum.finite 9), logoName := JSVal.str "Nike" },
    { logoSlug := JSVal.str "nike", photoId := JSVal.str "p1",
      confidence := JSVal.num (JSNum.finite 4), logoName := JSVal.str "Nike" }]⟩


/-- The record `fetchPhotosByLogo` returns for `db9W` and query `Nike`. -/
def pW9 : PhotoRecord :=
  { id := "p1", imageUrl := none, s3Key := none,
    logos := [⟨"Nike", "nike", JSNum.finite 9, none, none⟩,
              ⟨"Nike", "nike", JSNum.finite 4, none, none⟩],
    createdAt := none, matchConfidence := some (JSNum.finite 9) }


/-! # Theorems -/

theorem mem_collapseRuns_slugChar :
    ∀ (b : Bool) (l : List Char), ∀ c ∈ collapseRuns b l, isSlugChar c = true := by
  intro b l
  induction l generalizing b with
  | nil => intro c hc; simp [collapseRuns] at hc
  | cons a r ih =>
    intro c hc
    cases ha : isLowerAlnum a with
    | true =>
      simp only [collapseRuns, ha, if_true, List.mem_cons] at hc
      rcases hc with rfl | hc
      · simp [isSlugChar, ha]
      · exact ih false c hc
    | false =>
      cases b with
      | true =>
        simp only [collapseRuns, ha, Bool.false_eq_true, if_false, if_true] at hc
        exact ih true c hc
      | false =>
        simp only [collapseRuns, ha, Bool.false_eq_true, if_false, List.mem_cons] at hc
        rcases hc with rfl | hc
        · decide
        · exact ih true c hc


theorem collapseRuns_true_head :
    ∀ (l : List Char) (c : Char),
      (collapseRuns true l).head? = some c → isLowerAlnum c = true := by
  intro l
  induction l with
  | nil => intro c hc; simp [collapseRuns] at hc
  | cons a r ih =>
    intro c hc
    cases ha : isLowerAlnum a with
    | true =>
      simp only [collapseRuns, ha, if_true, List.head?_cons, Option.some.injEq] at hc
      subst hc; exact ha
    | false =>
      simp only [collapseRuns, ha, Bool.false_eq_true, if_false, if_true] at hc
      exact ih c hc


theorem collapseRuns_noDD : ∀ (b : Bool) (l : List Char), NoDD (collapseRuns b l) := by
  intro b l
  induction l generalizing b with
  | nil => simp [collapseRuns, NoDD]
  | cons a r ih =>
    cases ha : isLowerAlnum a with
    | true =>
      simp only [collapseRuns, ha, if_true]
      refine (List.chain'_cons').2 ⟨?_, ih false⟩
      intro y _ hcontra
      rcases hcontra with ⟨rfl, _⟩
      simp [isLowerAlnum] at ha
    | false =>
      cases b with
      | true =>
        simp only [collapseRuns, ha, Bool.false_eq_true, if_false, if_true]
        exact ih true
      | false =>
        simp only [collapseRuns, ha, Bool.false_eq_true, if_false]
        refine (List.chain'_cons').2 ⟨?_, ih true⟩
        intro y hy hcontra
        rcases hcontra with ⟨_, rfl⟩
        have := collapseRuns_true_head r '-' hy
        simp [isLowerAlnum] at this


theorem head?_dropWhile_false {p : Char → Bool} :
    ∀ (l : List Char) (c : Char), (l.dropWhile p).head? = some c → p c = false := by
  intro l
  induction l with
  | nil => intro c hc; simp [List.dropWhile] at hc
  | cons a r ih =>
    intro c hc
    by_cases hp : p a
    · rw [List.dropWhile_cons_of_pos hp] at hc
      exact ih c hc
    · rw [List.dropWhile_cons_of_neg hp] at hc
      simp only [List.head?_cons, Option.some.injEq] at hc
      subst hc
      simpa using hp


theorem dropWhile_eq_self_of_head {p : Char → Bool} {l : List Char}
    (h : ∀ c, l.head? = some c → p c = false) : l.dropWhile p = l := by
  cases l with
  | nil => rfl
  | cons a r => exact List.dropWhile_cons_of_neg (by simp [h a rfl])


theorem mem_stripDashes {l : List Char} {c : Char} (h : c ∈ stripDashes l) : c ∈ l := by
  unfold stripDashes at h
  rw [List.mem_reverse] at h
  have h1 := (List.dropWhile_sublist (l := (l.dropWhile (· == '-')).reverse)
    (p := (· == '-'))).subset h
  rw [List.mem_reverse] at h1
  exact (List.dropWhile_sublist (l := l) (p := (· == '-'))).subset h1


theorem noDD_stripDashes {l : List Char} (h : NoDD l) : NoDD (stripDashes l) := by
  unfold NoDD stripDashes
  rw [List.chain'_reverse]
  have h1 : NoDD (l.dropWhile (· == '-')) :=
    h.infix (List.dropWhile_suffix (· == '-')).isInfix
  have h1r : List.Chain' (flip fun a b => ¬(a = '-' ∧ b = '-'))
      ((l.dropWhile (· == '-')).reverse) := List.chain'_reverse.mpr h1
  exact h1r.infix (List.dropWhile_suffix (p := (· == '-'))).isInfix


theorem getLast?_stripDashes_ne_dash {l : List Char} :
    stripDashes l ≠ [] → (stripDashes l).getLast? ≠ some '-' := by
  intro _ hc
  unfold stripDashes at hc
  rw [List.getLast?_reverse] at hc
  have := head?_dropWhile_false _ _ hc
  simp at this


theorem head?_stripDashes_ne_dash {l : List Char} :
    (stripDashes l).head? ≠ some '-' := by
  intro hc
  unfold stripDashes at hc
  rw [List.head?_reverse] at hc
  set u := l.dropWhile (· == '-') with hu
  have hne : u.reverse.dropWhile (· == '-') ≠ [] := by
    intro hemp
    rw [hemp] at hc
    simp at hc
  have hsuff : u.reverse.dropWhile (· == '-') <:+ u.reverse :=
    List.dropWhile_suffix (· == '-')
  obtain ⟨t, ht⟩ := hsuff
  have h4 : (u.reverse).getLast? = some '-' := by
    rw [← ht, List.getLast?_append_of_ne_nil t hne]
    exact hc
  rw [List.getLast?_reverse] at h4
  have := head?_dropWhile_false (p := (· == '-')) l '-' (hu ▸ h4)
  simp at this


/-! ### Idempotence of the slug pipeline -/

theorem isSlugChar_not_ws {c : Char} (h : isSlugChar c = true) : isJsWs c = false := by
  by_contra hw
  have hw' : isJsWs c = true := by
    cases hv : isJsWs c
    · exact absurd hv hw
    · rfl
  have : c = ' ' ∨ c = '\t' ∨ c = '\n' ∨ c = '\r' ∨ c = '\x0b' ∨ c = '\x0c' := by
    simpa [isJsWs, beq_iff_eq, or_assoc] using hw'
  rcases this with rfl | rfl | rfl | rfl | rfl | rfl <;> simp [isSlugChar, isLowerAlnum] at h


theorem jsToLower_slugChar {c : Char} (h : isSlugChar c = true) : jsToLower c = c := by
  have h' : (97 ≤ c.toNat ∧ c.toNat ≤ 122) ∨ (48 ≤ c.toNat ∧ c.toNat ≤ 57) ∨ c = '-' := by
    simpa [isSlugChar, isLowerAlnum, Bool.or_eq_true, Bool.and_eq_true,
      decide_eq_true_eq, beq_iff_eq, or_assoc] using h
  have hn : ¬(65 ≤ c.toNat ∧ c.toNat ≤ 90) := by
    rcases h' with ⟨h1, h2⟩ | ⟨h1, h2⟩ | rfl
    · omega
    · omega
    · decide
  unfold jsToLower
  rw [if_neg]
  simpa [Bool.and_eq_true, decide_eq_true_eq] using hn


theorem jsTrim_eq_self {l : List Char} (h : ∀ c ∈ l, isSlugChar c = true) :
    jsTrim l = l := by
  unfold jsTrim
  have h1 : l.dropWhile isJsWs = l := by
    apply dropWhile_eq_self_of_head
    intro c hc
    exact isSlugChar_not_ws (h c (List.mem_of_mem_head? hc))
  rw [h1]
  have h2 : l.reverse.dropWhile isJsWs = l.reverse := by
    apply dropWhile_eq_self_of_head
    intro c hc
    have : c ∈ l.reverse := List.mem_of_mem_head? hc
    exact isSlugChar_not_ws (h c (List.mem_reverse.1 this))
  rw [h2, List.reverse_reverse]


theorem collapseRuns_eq_self :
    ∀ (l : List Char), (∀ c ∈ l, isSlugChar c = true) → NoDD l →
      collapseRuns false l = l ∧ (l.head? ≠ some '-' → collapseRuns true l = l) := by
  intro l
  induction l with
  | nil => intro _ _; exact ⟨rfl, fun _ => rfl⟩
  | cons a r ih =>
    intro hmem hdd
    have hr : ∀ c ∈ r, isSlugChar c = true := fun c hc => hmem c (List.mem_cons_of_mem a hc)
    have hrdd : NoDD r := ((List.chain'_cons').1 hdd).2
    have ha : isSlugChar a = true := hmem a (List.mem_cons_self a r)
    cases hla : isLowerAlnum a with
    | true =>
      have hfr : collapseRuns false r = r := (ih hr hrdd).1
      constructor
      · simp only [collapseRuns, hla, if_true, hfr]
      · intro _
        simp only [collapseRuns, hla, if_true, hfr]
    | false =>
      have ha' : a = '-' := by
        simp only [isSlugChar, hla, Bool.false_or] at ha
        simpa [beq_iff_eq] using ha
      subst ha'
      have hrhead : r.head? ≠ some '-' := by
        intro hc
        have := ((List.chain'_cons').1 hdd).1 '-' hc
        exact this ⟨rfl, rfl⟩
      have htr : collapseRuns true r = r := (ih hr hrdd).2 hrhead
      constructor
      · simp only [collapseRuns, hla, Bool.false_eq_true, if_false, htr]
      · intro hfalse
        exact absurd rfl hfalse


theorem stripDashes_eq_self {l : List Char}
    (hh : l.head? ≠ some '-') (hl : l.getLast? ≠ some '-') : stripDashes l = l := by
  unfold stripDashes
  have h1 : l.dropWhile (· == '-') = l := by
    apply dropWhile_eq_self_of_head
    intro c hc
    cases hv : c == '-'
    · rfl
    · exact absurd (by rw [← (beq_iff_eq.1 hv)]; exact hc) hh
  rw [h1]
  have h2 : l.reverse.dropWhile (· == '-') = l.reverse := by
    apply dropWhile_eq_self_of_head
    intro c hc
    rw [List.head?_reverse] at hc
    cases hv : c == '-'
    · rfl
    · exact absurd (by rw [← (beq_iff_eq.1 hv)]; exact hc) hl
  rw [h2, List.reverse_reverse]


theorem mem_normalizeChars_slugChar {l : List Char} :
    ∀ c ∈ normalizeChars l, isSlugChar c = true := by
  intro c hc
  unfold normalizeChars at hc
  exact mem_collapseRuns_slugChar false _ c (mem_stripDashes hc)


theorem normalizeChars_idem (l : List Char) :
    normalizeChars (normalizeChars l) = normalizeChars l := by
  have hmem : ∀ c ∈ normalizeChars l, isSlugChar c = true := mem_normalizeChars_slugChar
  have hdd : NoDD (normalizeChars l) := noDD_stripDashes (collapseRuns_noDD false _)
  have hh : (normalizeChars l).head? ≠ some '-' := head?_stripDashes_ne_dash
  conv_lhs => rw [normalizeChars]
  rw [jsTrim_eq_self hmem]
  rw [List.map_congr_left (fun c hc => jsToLower_slugChar (hmem c hc)), List.map_id']
  rw [(collapseRuns_eq_self _ hmem hdd).1]
  rcases hemp : normalizeChars l with _ | ⟨a, r⟩
  · rfl
  · apply stripDashes_eq_self
    · rw [← hemp]; exact hh
    · rw [← hemp]
      apply getLast?_stripDashes_ne_dash
      show normalizeChars l ≠ []
      rw [hemp]
      simp


/-- Idempotence of `normalizeLogoName`. -/
theorem normalizeLogoName_idem (s : String) :
    normalizeLogoName (normalizeLogoName s) = normalizeLogoName s := by
  unfold normalizeLogoName
  exact congrArg String.mk (normalizeChars_idem s.data)


/-! ## Lemmas about the sort model -/

theorem head?_jsMerge {α : Type} (le : α → α → Bool) :
    ∀ (l r : List α) (c : α), (jsMerge le l r).head? = some c →
      l.head? = some c ∨ r.head? = some c := by
  intro l r
  induction l, r using jsMerge.induct le with
  | case1 r => intro c hc; right; simpa [jsMerge] using hc
  | case2 l h => intro c hc; left; simpa [jsMerge] using hc
  | case3 a l b r hle ih =>
    intro c hc
    rw [jsMerge, if_pos hle] at hc
    left; simpa using hc
  | case4 a l b r hle ih =>
    intro c hc
    rw [jsMerge, if_neg hle] at hc
    right; simpa using hc


/-- Merging two comparator-compatible chains yields a chain: every adjacent
cross pair of the merge was actually compared. -/
theorem chain'_jsMerge {α : Type} (le : α → α → Bool) (R : α → α → Prop)
    (h1 : ∀ a b, le a b = true → R a b) (h2 : ∀ a b, le a b = false → R b a) :
    ∀ (l r : List α), List.Chain' R l → List.Chain' R r →
      List.Chain' R (jsMerge le l r) := by
  intro l r
  induction l, r using jsMerge.induct le with
  | case1 r => intro _ hr; simpa [jsMerge] using hr
  | case2 l h => intro hl _; simpa [jsMerge] using hl
  | case3 a l b r hle ih =>
    intro hl hr
    rw [jsMerge, if_pos hle]
    refine (List.chain'_cons').2 ⟨?_, ih ((List.chain'_cons').1 hl).2 hr⟩
    intro y hy
    rcases head?_jsMerge le l (b :: r) y hy with h | h
    · exact ((List.chain'_cons').1 hl).1 y h
    · simp only [List.head?_cons, Option.some.injEq] at h
      subst h
      exact h1 a b hle
  | case4 a l b r hle ih =>
    intro hl hr
    rw [jsMerge, if_neg hle]
    refine (List.chain'_cons').2 ⟨?_, ih hl ((List.chain'_cons').1 hr).2⟩
    intro y hy
    rcases head?_jsMerge le (a :: l) r y hy with h | h
    · simp only [List.head?_cons, Option.some.injEq] at h
      subst h
      exact h2 a b (by simpa using hle)
    · exact ((List.chain'_cons').1 hr).1 y h


/-- Any list sorted by the model of `Array.prototype.sort` is a chain for
any relation the comparator decides in both directions — even when the
comparator is not a consistent total order on all of the input. -/
theorem chain'_jsSortBy {α : Type} (le : α → α → Bool) (R : α → α → Prop)
    (h1 : ∀ a b, le a b = true → R a b) (h2 : ∀ a b, le a b = false → R b a) :
    ∀ (l : List α), List.Chain' R (jsSortBy le l) := by
  intro l
  induction l using jsSortBy.induct le with
  | case1 => simp [jsSortBy]
  | case2 a => simp [jsSortBy]
  | case3 a b rest ih1 ih2 =>
    rw [jsSortBy]
    exact chain'_jsMerge le R h1 h2 _ _ ih1 ih2


/-! ## Lemmas about `asNumber`, truthiness and the map helpers -/

theorem asNumber_ite_aux {num n : JSNum}
    (h : (if num.isFinite then some num else none) = some n) : n.isFinite = true := by
  cases hq : num.isFinite
  · rw [hq] at h; simp at h
  · rw [hq] at h
    simp only [if_true, Option.some.injEq] at h
    rw [← h]; exact hq


theorem asNumber_finite : ∀ (v : JSVal) (n : JSNum),
    asNumber v = some n → n.isFinite = true := by
  intro v n h
  exact asNumber_ite_aux h


theorem truthyString_asString {v : JSVal} {s : String}
    (h : truthyString v = some s) : asString v = some s ∧ s ≠ "" := by
  unfold truthyString at h
  cases hv : asString v with
  | none => rw [hv] at h; cases h
  | some t =>
    rw [hv] at h
    by_cases ht : t = ""
    · simp [ht] at h
    · simp only [Option.some_bind, if_neg ht, Option.some.injEq] at h
      subst h
      exact ⟨rfl, ht⟩


theorem find?_setMap_self {α : Type} (k : String) (v : α) :
    ∀ (m : List (String × α)), m.any (fun e => e.1 == k) = true →
      (m.map (fun e => if e.1 == k then (k, v) else e)).find? (fun e => e.1 == k) =
        some (k, v) := by
  intro m
  induction m with
  | nil => intro h; simp at h
  | cons e rest ih =>
    intro hany
    cases he : (e.1 == k) with
    | true =>
      rw [List.map_cons, if_pos he]
      simp only [List.find?_cons, beq_self_eq_true]
    | false =>
      have hrest : rest.any (fun e => e.1 == k) = true := by
        simpa [List.any_cons, he] using hany
      rw [List.map_cons, if_neg (by simp [he])]
      simp only [List.find?_cons, he]
      exact ih hrest


theorem find?_append_right {α : Type} (p : α → Bool) :
    ∀ (m : List α) (x : α), m.find? p = none → (m ++ [x]).find? p = [x].find? p := by
  intro m x
  induction m with
  | nil => intro _; rfl
  | cons e rest ih =>
    intro hnone
    rw [List.find?_cons] at hnone
    cases he : p e with
    | true => rw [he] at hnone; cases hnone
    | false =>
      rw [he] at hnone
      rw [List.cons_append]
      simp only [List.find?_cons, he]
      exact ih hnone


theorem find?_none_of_any_false {α : Type} (p : α → Bool) :
    ∀ (m : List α), m.any p = false → m.find? p = none := by
  intro m
  induction m with
  | nil => intro _; rfl
  | cons e rest ih =>
    intro hany
    rw [List.any_cons] at hany
    cases he : p e with
    | true => rw [he] at hany; simp at hany
    | false =>
      simp only [List.find?_cons, he]
      exact ih (by rw [he] at hany; simpa using hany)


theorem mapGet_mapSet_self {α : Type} (m : List (String × α)) (k : String) (v : α) :
    mapGet (mapSet m k v) k = some v := by
  unfold mapSet
  cases hany : m.any (fun e => e.1 == k) with
  | true =>
    rw [if_pos rfl]
    unfold mapGet
    rw [find?_setMap_self k v m hany]
    rfl
  | false =>
    rw [if_neg (by simp)]
    unfold mapGet
    rw [find?_append_right _ m (k, v) (find?_none_of_any_false _ m hany)]
    simp only [List.find?_cons, beq_self_eq_true]
    rfl


theorem find?_setMap_ne {α : Type} (k k' : String) (v : α) (hne : k' ≠ k) :
    ∀ (m : List (String × α)),
      (m.map (fun e => if e.1 == k then (k, v) else e)).find? (fun e => e.1 == k') =
        m.find? (fun e => e.1 == k') := by
  intro m
  have hkk : (k == k') = false := by
    cases hv : k == k'
    · rfl
    · exact absurd ((beq_iff_eq.1 hv).symm) hne
  induction m with
  | nil => rfl
  | cons e rest ih =>
    cases he : (e.1 == k) with
    | true =>
      rw [List.map_cons, if_pos he]
      have he1 : e.1 = k := beq_iff_eq.1 he
      have he2 : (e.1 == k') = false := by rw [he1]; exact hkk
      simp only [List.find?_cons, hkk, he2]
      exact ih
    | false =>
      rw [List.map_cons, if_neg (by simp [he])]
      cases he' : (e.1 == k') with
      | true => simp only [List.find?_cons, he']
      | false =>
        simp only [List.find?_cons, he']
        exact ih


theorem mapGet_mapSet_ne {α : Type} (m : List (String × α)) (k k' : String) (v : α)
    (hne : k' ≠ k) : mapGet (mapSet m k v) k' = mapGet m k' := by
  have hkk : (k == k') = false := by
    cases hv : k == k'
    · rfl
    · exact absurd ((beq_iff_eq.1 hv).symm) hne
  unfold mapSet
  cases hany : m.any (fun e => e.1 == k) with
  | true =>
    rw [if_pos rfl]
    unfold mapGet
    rw [find?_setMap_ne k k' v hne m]
  | false =>
    rw [if_neg (by simp)]
    unfold mapGet
    cases hf : m.find? (fun e => e.1 == k') with
    | some e =>
      have happ : (m ++ [(k, v)]).find? (fun e => e.1 == k') = some e := by
        rw [List.find?_append, hf]
        rfl
      rw [happ]
    | none =>
      have h2 := find?_append_right (fun e => (e.1 == k')) m (k, v) hf
      rw [h2]
      simp only [List.find?_cons, hkk]
      rfl


theorem mem_mapSet {α : Type} {m : List (String × α)} {k : String} {v : α}
    {e : String × α} (h : e ∈ mapSet m k v) : e = (k, v) ∨ e ∈ m := by
  unfold mapSet at h
  by_cases hany : m.any (fun e => e.1 == k) = true
  · rw [if_pos hany] at h
    rw [List.mem_map] at h
    obtain ⟨e', he', heq⟩ := h
    by_cases hk : (e'.1 == k) = true
    · rw [if_pos hk] at heq
      exact Or.inl heq.symm
    · rw [if_neg hk] at heq
      exact Or.inr (heq ▸ he')
  · rw [if_neg hany] at h
    rw [List.mem_append] at h
    rcases h with h | h
    · exact Or.inr h
    · simp only [List.mem_singleton] at h
      exact Or.inl h


theorem jsMapGet_mem {α : Type} {entries : List (String × α)} {k : String} {v : α}
    (h : jsMapGet entries k = some v) : (k, v) ∈ entries := by
  unfold jsMapGet at h
  cases hf : entries.reverse.find? (fun e => e.1 == k) with
  | none => rw [hf] at h; cases h
  | some e =>
    rw [hf] at h
    have hmem := List.mem_of_find?_eq_some hf
    have hpred := List.find?_some hf
    have hk : e.1 = k := by simpa using hpred
    have hv : e.2 = v := by simpa using h
    rw [List.mem_reverse] at hmem
    have hkv : (k, v) = e := by
      cases e
      simp only [Prod.mk.injEq]
      exact ⟨hk.symm, hv.symm⟩
    rw [hkv]
    exact hmem


theorem optMaxQ_none_right : ∀ (a : Option ℚ), optMaxQ a none = a
  | none => rfl
  | some _ => rfl


theorem optMaxQ_assoc : ∀ (a b c : Option ℚ),
    optMaxQ (optMaxQ a b) c = optMaxQ a (optMaxQ b c) := by
  intro a b c
  cases a <;> cases b <;> cases c <;> simp [optMaxQ, max_assoc]


theorem listMaxQ_cons (q : ℚ) (t : List ℚ) :
    listMaxQ (q :: t) = optMaxQ (some q) (listMaxQ t) := by
  cases ht : listMaxQ t <;> simp [listMaxQ, ht, optMaxQ]


theorem mapGet_mem {α : Type} {m : List (String × α)} {k : String} {v : α}
    (h : mapGet m k = some v) : (k, v) ∈ m := by
  unfold mapGet at h
  cases hf : m.find? (fun e => e.1 == k) with
  | none => rw [hf] at h; cases h
  | some e =>
    rw [hf] at h
    have hmem := List.mem_of_find?_eq_some hf
    have hk : e.1 = k := by simpa using List.find?_some hf
    have hv : e.2 = v := by simpa using h
    have hkv : (k, v) = e := by
      cases e
      simp only [Prod.mk.injEq]
      exact ⟨hk.symm, hv.symm⟩
    rw [hkv]
    exact hmem


theorem collectStep_uniq (acc : MappingAccum) (pr : Option String × Option JSNum) :
    (collectStep acc pr).uniquePhotoIds =
      match pr.1 with
      | none => acc.uniquePhotoIds
      | some pid =>
        if pid ∈ acc.uniquePhotoIds then acc.uniquePhotoIds
        else acc.uniquePhotoIds ++ [pid] := by
  obtain ⟨o, c⟩ := pr
  cases o with
  | none => rfl
  | some pid =>
    cases c with
    | none => rfl
    | some confidence =>
      simp only [collectStep]
      cases hg : mapGet acc.photoIdConfidences pid with
      | none => rfl
      | some existing =>
        dsimp only
        by_cases hb : confidence.gtB existing = true
        · rw [if_pos hb]
        · rw [if_neg hb]


theorem collectStep_confs_mem (acc : MappingAccum) (pr : Option String × Option JSNum) :
    ∀ e ∈ (collectStep acc pr).photoIdConfidences,
      e ∈ acc.photoIdConfidences ∨
      ∃ pid x, pr = (some pid, some x) ∧ e = (pid, x) := by
  intro e he
  obtain ⟨o, c⟩ := pr
  cases o with
  | none => exact Or.inl he
  | some pid =>
    cases c with
    | none => exact Or.inl he
    | some confidence =>
      simp only [collectStep] at he
      cases hg : mapGet acc.photoIdConfidences pid with
      | none =>
        rw [hg] at he
        rcases mem_mapSet he with h | h
        · exact Or.inr ⟨pid, confidence, rfl, h⟩
        · exact Or.inl h
      | some existing =>
        rw [hg] at he
        dsimp only at he
        by_cases hb : confidence.gtB existing = true
        · rw [if_pos hb] at he
          rcases mem_mapSet he with h | h
          · exact Or.inr ⟨pid, confidence, rfl, h⟩
          · exact Or.inl h
        · rw [if_neg hb] at he
          exact Or.inl he


theorem collect_confs_finite :
    ∀ (prs : List (Option String × Option JSNum)) (acc : MappingAccum),
      (∀ pr ∈ prs, ∀ x, pr.2 = some x → x.isFinite = true) →
      (∀ e ∈ acc.photoIdConfidences, e.2.isFinite = true) →
      ∀ e ∈ (prs.foldl collectStep acc).photoIdConfidences, e.2.isFinite = true := by
  intro prs
  induction prs with
  | nil => intro acc _ hacc e he; exact hacc e he
  | cons pr rest ih =>
    intro acc hprs hacc e he
    rw [List.foldl_cons] at he
    refine ih (collectStep acc pr) ?_ ?_ e he
    · intro pr' hpr'
      exact hprs pr' (List.mem_cons_of_mem pr hpr')
    · intro e' he'
      rcases collectStep_confs_mem acc pr e' he' with h | ⟨pid, x, hpr, hex⟩
      · exact hacc e' h
      · have := hprs pr (List.mem_cons_self pr rest) x (by rw [hpr])
        rw [hex]
        exact this



theorem collect_uniq_eq :
    ∀ (prs : List (Option String × Option JSNum)) (acc : MappingAccum),
      (prs.foldl collectStep acc).uniquePhotoIds =
        (prs.filterMap (·.1)).foldl
          (fun ids x => if x ∈ ids then ids else ids ++ [x]) acc.uniquePhotoIds := by
  intro prs
  induction prs with
  | nil => intro acc; rfl
  | cons pr rest ih =>
    intro acc
    rw [List.foldl_cons, ih (collectStep acc pr)]
    obtain ⟨o, c⟩ := pr
    cases o with
    | none =>
      have h1 : (collectStep acc (none, c)).uniquePhotoIds = acc.uniquePhotoIds :=
        collectStep_uniq acc (none, c)
      rw [h1]
      rfl
    | some pid =>
      have h1 := collectStep_uniq acc (some pid, c)
      dsimp only at h1
      rw [h1]
      rfl


theorem foldl_dedup_mem :
    ∀ (l : List String) (acc : List String) (x : String),
      x ∈ l.foldl (fun ids y => if y ∈ ids then ids else ids ++ [y]) acc →
        x ∈ acc ∨ x ∈ l := by
  intro l
  induction l with
  | nil => intro acc x h; exact Or.inl h
  | cons a rest ih =>
    intro acc x h
    rw [List.foldl_cons] at h
    rcases ih _ x h with h' | h'
    · by_cases ha : a ∈ acc
      · rw [if_pos ha] at h'
        exact Or.inl h'
      · rw [if_neg ha] at h'
        rw [List.mem_append] at h'
        rcases h' with h' | h'
        · exact Or.inl h'
        · simp only [List.mem_singleton] at h'
          exact Or.inr (h' ▸ List.mem_cons_self a rest)
    · exact Or.inr (List.mem_cons_of_mem a h')


theorem foldl_dedup_nodup :
    ∀ (l : List String) (acc : List String), acc.Nodup →
      (l.foldl (fun ids y => if y ∈ ids then ids else ids ++ [y]) acc).Nodup := by
  intro l
  induction l with
  | nil => intro acc h; exact h
  | cons a rest ih =>
    intro acc hacc
    rw [List.foldl_cons]
    by_cases ha : a ∈ acc
    · rw [if_pos ha]; exact ih acc hacc
    · rw [if_neg ha]
      refine ih _ ?_
      rw [List.nodup_append]
      exact ⟨hacc, List.nodup_singleton a, by simpa using ha⟩


theorem dedupFirst_nodup (l : List String) : (dedupFirst l).Nodup :=
  foldl_dedup_nodup l [] List.nodup_nil


theorem mem_dedupFirst {l : List String} {x : String} (h : x ∈ dedupFirst l) : x ∈ l := by
  rcases foldl_dedup_mem l [] x h with h' | h'
  · cases h'
  · exact h'


theorem collectMappings_uniq (prs : List (Option String × Option JSNum)) :
    (collectMappings prs).uniquePhotoIds = dedupFirst (prs.filterMap (·.1)) :=
  collect_uniq_eq prs ⟨[], []⟩



theorem collectStep_confQAt_none (acc : MappingAccum) (c : Option JSNum) :
    (collectStep acc (none, c)).photoIdConfidences = acc.photoIdConfidences := rfl


theorem collect_conf_max :
    ∀ (prs : List (Option String × Option JSNum)) (acc : MappingAccum),
      (∀ pr ∈ prs, ∀ x, pr.2 = some x → x.isFinite = true) →
      (∀ e ∈ acc.photoIdConfidences, e.2.isFinite = true) →
      ∀ pid,
        confQAt (prs.foldl collectStep acc).photoIdConfidences pid =
          optMaxQ (confQAt acc.photoIdConfidences pid)
            (listMaxQ (finiteConfsOf prs pid)) := by
  intro prs
  induction prs with
  | nil =>
    intro acc _ _ pid
    rw [List.foldl_nil]
    have : finiteConfsOf [] pid = [] := rfl
    rw [this]
    exact (optMaxQ_none_right _).symm
  | cons pr rest ih =>
    intro acc hprs hacc pid
    rw [List.foldl_cons]
    have hrest : ∀ pr' ∈ rest, ∀ x, pr'.2 = some x → x.isFinite = true :=
      fun pr' h => hprs pr' (List.mem_cons_of_mem pr h)
    have hacc' : ∀ e ∈ (collectStep acc pr).photoIdConfidences, e.2.isFinite = true := by
      intro e he
      rcases collectStep_confs_mem acc pr e he with h | ⟨pid', x, hpr, hex⟩
      · exact hacc e h
      · have := hprs pr (List.mem_cons_self pr rest) x (by rw [hpr])
        rw [hex]; exact this
    rw [ih (collectStep acc pr) hrest hacc' pid]
    obtain ⟨o, c⟩ := pr
    cases o with
    | none =>
      rw [collectStep_confQAt_none acc c]
      have hfc : finiteConfsOf ((none, c) :: rest) pid = finiteConfsOf rest pid := by
        unfold finiteConfsOf
        rw [List.filterMap_cons]
        simp
      rw [hfc]
    | some pid' =>
      by_cases hp : pid' = pid
      · subst hp
        cases c with
        | none =>
          have hconfs : (collectStep acc (some pid', none)).photoIdConfidences =
              acc.photoIdConfidences := rfl
          rw [hconfs]
          have hfc : finiteConfsOf ((some pid', none) :: rest) pid' =
              finiteConfsOf rest pid' := by
            unfold finiteConfsOf
            rw [List.filterMap_cons]
            simp
          rw [hfc]
        | some x =>
          have hxfin : x.isFinite = true :=
            hprs (some pid', some x) (List.mem_cons_self _ rest) x rfl
          obtain ⟨q, rfl⟩ : ∃ q, x = JSNum.finite q := by
            cases x with
            | finite q => exact ⟨q, rfl⟩
            | nan => simp [JSNum.isFinite] at hxfin
            | posInf => simp [JSNum.isFinite] at hxfin
            | negInf => simp [JSNum.isFinite] at hxfin
          have hfc : finiteConfsOf ((some pid', some (JSNum.finite q)) :: rest) pid' =
              q :: finiteConfsOf rest pid' := by
            unfold finiteConfsOf
            rw [List.filterMap_cons]
            simp [JSNum.ratVal?]
          rw [hfc, listMaxQ_cons]
          rw [← optMaxQ_assoc]
          congr 1
          -- goal: confQAt (collectStep acc (some pid', some (finite q))).confs pid'
          --       = optMaxQ (confQAt acc.confs pid') (some q)
          simp only [collectStep]
          cases hg : mapGet acc.photoIdConfidences pid' with
          | none =>
            dsimp only
            unfold confQAt
            rw [mapGet_mapSet_self, hg]
            rfl
          | some existing =>
            dsimp only
            have hefin : existing.isFinite = true :=
              hacc (pid', existing) (mapGet_mem hg)
            obtain ⟨e, rfl⟩ : ∃ e, existing = JSNum.finite e := by
              cases existing with
              | finite e => exact ⟨e, rfl⟩
              | nan => simp [JSNum.isFinite] at hefin
              | posInf => simp [JSNum.isFinite] at hefin
              | negInf => simp [JSNum.isFinite] at hefin
            have hgt : (JSNum.finite q).gtB (JSNum.finite e) = decide (e < q) := rfl
            by_cases hlt : e < q
            · rw [if_pos (by rw [hgt]; exact decide_eq_true hlt)]
              unfold confQAt
              rw [mapGet_mapSet_self, hg]
              simp only [Option.some_bind, JSNum.ratVal?, optMaxQ]
              rw [max_eq_right (le_of_lt hlt)]
            · rw [if_neg (by rw [hgt]; simpa using hlt)]
              unfold confQAt
              rw [hg]
              simp only [Option.some_bind, JSNum.ratVal?, optMaxQ]
              rw [max_eq_left (not_lt.1 hlt)]
      · -- different photo id: untouched at pid
        have hconfs : confQAt (collectStep acc (some pid', c)).photoIdConfidences pid =
            confQAt acc.photoIdConfidences pid := by
          cases c with
          | none => rfl
          | some x =>
            simp only [collectStep]
            cases hg : mapGet acc.photoIdConfidences pid' with
            | none =>
              dsimp only
              unfold confQAt
              rw [mapGet_mapSet_ne _ _ _ _ (fun h => hp h.symm)]
            | some existing =>
              dsimp only
              by_cases hb : x.gtB existing = true
              · rw [if_pos hb]
                unfold confQAt
                rw [mapGet_mapSet_ne _ _ _ _ (fun h => hp h.symm)]
              · rw [if_neg hb]
          -- end cases
        rw [hconfs]
        have hfc : finiteConfsOf ((some pid', c) :: rest) pid = finiteConfsOf rest pid := by
          unfold finiteConfsOf
          rw [List.filterMap_cons]
          have : ((some pid' : Option String) = some pid) = False := by
            simp [hp]
          simp [this]
        rw [hfc]



theorem mem_jsMerge {α : Type} (le : α → α → Bool) :
    ∀ (l r : List α) (x : α), x ∈ jsMerge le l r → x ∈ l ∨ x ∈ r := by
  intro l r
  induction l, r using jsMerge.induct le with
  | case1 r => intro x hx; right; simpa [jsMerge] using hx
  | case2 l h => intro x hx; left; simpa [jsMerge] using hx
  | case3 a l b r hle ih =>
    intro x hx
    rw [jsMerge, if_pos hle] at hx
    rcases List.mem_cons.1 hx with rfl | hx
    · exact Or.inl (List.mem_cons_self _ _)
    · rcases ih x hx with h | h
      · exact Or.inl (List.mem_cons_of_mem a h)
      · exact Or.inr h
  | case4 a l b r hle ih =>
    intro x hx
    rw [jsMerge, if_neg hle] at hx
    rcases List.mem_cons.1 hx with rfl | hx
    · exact Or.inr (List.mem_cons_self _ _)
    · rcases ih x hx with h | h
      · exact Or.inl h
      · exact Or.inr (List.mem_cons_of_mem b h)


theorem mem_jsSortBy {α : Type} (le : α → α → Bool) :
    ∀ (l : List α) (x : α), x ∈ jsSortBy le l → x ∈ l := by
  intro l
  induction l using jsSortBy.induct le with
  | case1 => intro x hx; simp [jsSortBy] at hx
  | case2 a => intro x hx; simpa [jsSortBy] using hx
  | case3 a b rest ih1 ih2 =>
    intro x hx
    rw [jsSortBy] at hx
    rcases mem_jsMerge le _ _ x hx with h | h
    · exact (List.take_sublist _ _).subset (ih1 x h)
    · exact (List.drop_sublist _ _).subset (ih2 x h)


theorem fetchPhotosByLogoDec_eq (base : Option String) (db : DecoupledDB)
    (q : String) :
    fetchPhotosByLogoDec base db q =
      (collectMappings (mappingPairsDec db q)).uniquePhotoIds.filterMap
        (buildDec base db q) := by
  unfold fetchPhotosByLogoDec
  by_cases h1 : queryMappingsDec db (normalizeLogoName q) = []
  · rw [if_pos h1]
    have hpairs : mappingPairsDec db q = [] := by
      unfold mappingPairsDec
      rw [h1]
      rfl
    rw [hpairs]
    rfl
  · rw [if_neg h1]
    by_cases h2 : (collectMappings ((queryMappingsDec db (normalizeLogoName q)).map
        (fun it => (truthyString it.photoId, asNumber it.confidence)))).uniquePhotoIds = []
    · rw [if_pos h2]
      have : (collectMappings (mappingPairsDec db q)).uniquePhotoIds = [] := h2
      rw [this]
      rfl
    · rw [if_neg h2]
      rfl



theorem fetchPhotosByLogoST_eq (base : Option String) (db : SingleTableDB)
    (q : String) :
    fetchPhotosByLogoST base db q =
      (collectMappings (mappingPairsST db q)).uniquePhotoIds.filterMap
        (buildST base db q) := by
  unfold fetchPhotosByLogoST
  by_cases h1 : queryMappingsST db (normalizeLogoName q) = []
  · rw [if_pos h1]
    have hpairs : mappingPairsST db q = [] := by
      unfold mappingPairsST
      rw [h1]
      rfl
    rw [hpairs]
    rfl
  · rw [if_neg h1]
    by_cases h2 : (collectMappings ((queryMappingsST db (normalizeLogoName q)).map
        (fun it => (pidOfSTMapping it, asNumber it.confidence)))).uniquePhotoIds = []
    · rw [if_pos h2]
      have : (collectMappings (mappingPairsST db q)).uniquePhotoIds = [] := h2
      rw [this]
      rfl
    · rw [if_neg h2]
      rfl


theorem photoMapDec_id (base : Option String) (db : DecoupledDB) (q : String) :
    ∀ e ∈ photoMapDec base db q, e.2.id = e.1 ∧ e.1 ≠ "" := by
  intro e he
  unfold photoMapDec at he
  rw [List.mem_filterMap] at he
  obtain ⟨it, _, hf⟩ := he
  cases ht : truthyString it.photoId with
  | none => rw [ht] at hf; cases hf
  | some pid =>
    rw [ht] at hf
    obtain ⟨has, hne⟩ := truthyString_asString ht
    cases hf
    constructor
    · show (mapPhotoItem base it).id = pid
      unfold mapPhotoItem
      rw [has]
      rfl
    · exact hne


theorem photoMapST_id (base : Option String) (db : SingleTableDB) (q : String) :
    ∀ e ∈ photoMapST base db q, e.2.id = e.1 ∧ e.1 ≠ "" := by
  intro e he
  unfold photoMapST at he
  rw [List.mem_filterMap] at he
  obtain ⟨it, _, hf⟩ := he
  cases ht : asString it.SK with
  | none => rw [ht] at hf; cases hf
  | some sortKey =>
    rw [ht] at hf
    dsimp only at hf
    by_cases hsk : sortKey = ""
    · rw [if_pos hsk] at hf; cases hf
    · rw [if_neg hsk] at hf
      cases hf
      constructor
      · show (mapPhotoItemST base it).id = sortKey
        unfold mapPhotoItemST
        rw [ht]
        rfl
      · exact hsk


theorem buildDec_id {base : Option String} {db : DecoupledDB} {q : String}
    {pid : String} {p : PhotoRecord} (h : buildDec base db q pid = some p) :
    p.id = pid := by
  unfold buildDec at h
  cases hg : jsMapGet (photoMapDec base db q) pid with
  | none => rw [hg] at h; cases h
  | some photo =>
    rw [hg] at h
    cases h
    have := (photoMapDec_id base db q (pid, photo) (jsMapGet_mem hg)).1
    exact this


theorem buildST_id {base : Option String} {db : SingleTableDB} {q : String}
    {pid : String} {p : PhotoRecord} (h : buildST base db q pid = some p) :
    p.id = pid := by
  unfold buildST at h
  cases hg : jsMapGet (photoMapST base db q) pid with
  | none => rw [hg] at h; cases h
  | some photo =>
    rw [hg] at h
    cases h
    exact (photoMapST_id base db q (pid, photo) (jsMapGet_mem hg)).1


theorem map_id_filterMap (F : String → Option PhotoRecord)
    (hF : ∀ pid p, F pid = some p → p.id = pid) :
    ∀ (ids : List String),
      ((ids.filterMap F).map (fun p => p.id)) = ids.filter (fun pid => (F pid).isSome) := by
  intro ids
  induction ids with
  | nil => rfl
  | cons a rest ih =>
    rw [List.filterMap_cons]
    cases hf : F a with
    | none =>
      rw [List.filter_cons]
      simp only [hf, Option.isSome_none, Bool.false_eq_true, if_false]
      exact ih
    | some p =>
      rw [List.filter_cons]
      simp only [hf, Option.isSome_some, if_true, List.map_cons]
      rw [hF a p hf, ih]



theorem timeOf_some {parse : String → Option ℤ} {p : PhotoRecord} {t : ℤ}
    (h : timeOf parse p = some t) :
    ∃ c, p.createdAt = some c ∧ c ≠ "" ∧ parse c = some t := by
  unfold timeOf at h
  cases hc : p.createdAt with
  | none => rw [hc] at h; cases h
  | some c =>
    rw [hc] at h
    dsimp only at h
    by_cases hne : c ≠ ""
    · rw [if_pos hne] at h
      exact ⟨c, rfl, hne, h⟩
    · rw [if_neg hne] at h
      cases h


theorem photoCompare_timed {parse : String → Option ℤ} {a b : PhotoRecord}
    {ta tb : ℤ} (hta : timeOf parse a = some ta) (htb : timeOf parse b = some tb) :
    photoCompare parse a b = tb - ta := by
  obtain ⟨ca, hca, hcane, hpa⟩ := timeOf_some hta
  obtain ⟨cb, hcb, hcbne, hpb⟩ := timeOf_some htb
  unfold photoCompare
  rw [hca, hcb]
  dsimp only
  rw [if_pos ⟨hcane, hcbne⟩, hpa, hpb]


theorem photoLe_desc_true {parse : String → Option ℤ} (a b : PhotoRecord)
    (h : photoLe parse a b = true) :
    ∀ ta tb, timeOf parse a = some ta → timeOf parse b = some tb → tb ≤ ta := by
  intro ta tb hta htb
  unfold photoLe at h
  rw [photoCompare_timed hta htb] at h
  have := of_decide_eq_true h
  omega


theorem photoLe_desc_false {parse : String → Option ℤ} (a b : PhotoRecord)
    (h : photoLe parse a b = false) :
    ∀ tb ta, timeOf parse b = some tb → timeOf parse a = some ta → ta ≤ tb := by
  intro tb ta htb hta
  unfold photoLe at h
  rw [photoCompare_timed hta htb] at h
  have := of_decide_eq_false h
  omega


/-- C2: the list returned by `fetchAllPhotos` (either variant) is sorted by
creation time descending: for adjacent records whose `createdAt` are both
present and parseable, the earlier record's time is at least the later's. -/
theorem C2_fetchAllPhotos_sorted_desc :
    ∀ (base : Option String) (parse : String → Option ℤ) (db : DecoupledDB)
      (stdb : SingleTableDB),
      List.Chain' (fun a b => ∀ ta tb, timeOf parse a = some ta →
          timeOf parse b = some tb → tb ≤ ta) (fetchAllPhotosDec base parse db) ∧
      List.Chain' (fun a b => ∀ ta tb, timeOf parse a = some ta →
          timeOf parse b = some tb → tb ≤ ta) (fetchAllPhotosST base parse stdb) := by
  intro base parse db stdb
  constructor
  · unfold fetchAllPhotosDec
    by_cases h : db.photos = []
    · rw [if_pos h]
      exact List.chain'_nil
    · rw [if_neg h]
      exact chain'_jsSortBy (photoLe parse) _ photoLe_desc_true photoLe_desc_false _
  · exact chain'_jsSortBy (photoLe parse) _ photoLe_desc_true photoLe_desc_false _


/-- C3: every error thrown while handling a GET in the photos, logos or
photos-by-logo routes is caught, logged, and converted into a JSON
response with status 500 and a generic error body — never a success
payload. -/
theorem C3_routes_catch_errors (ε : Type) (e : ε) (param : String)
    (fetch : String → Except ε (List PhotoRecord)) :
    (photosRouteGET (Except.error e : Except ε (List PhotoRecord)) =
      ⟨500, .errorMsg "Unable to load photos", ["Failed to load photos"]⟩) ∧
    (logosRouteGET (Except.error e : Except ε (List LogoSummary)) =
      ⟨500, .errorMsg "Unable to load logos", ["Failed to load logos"]⟩) ∧
    (param ≠ "" → fetch (normalizeLogoName param) = .error e →
      photosByLogoRouteGET param fetch =
        ⟨500, .errorMsg "Unable to load photos for logo",
          ["Failed to load photos by logo"]⟩) := by
  refine ⟨rfl, rfl, ?_⟩
  intro hparam herr
  unfold photosByLogoRouteGET
  rw [if_neg hparam, herr]


theorem C3_witness :
    ("nike" ≠ "") ∧
    (photosByLogoRouteGET "nike" (fun _ => Except.error ()) =
      ⟨500, .errorMsg "Unable to load photos for logo",
        ["Failed to load photos by logo"]⟩) :=
  ⟨by decide,
   (C3_routes_catch_errors Unit () "nike" (fun _ => Except.error ())).2.2
     (by decide) rfl⟩


/-- C10: `normalizeLogoName` is idempotent, so the double normalization of
the photos-by-logo route (once in the route, once inside
`fetchPhotosByLogo`) yields the same slug and the same result as a single
normalization. -/
theorem C10_normalize_idempotent :
    (∀ s, normalizeLogoName (normalizeLogoName s) = normalizeLogoName s) ∧
    (∀ (base : Option String) (db : DecoupledDB) (s : String),
      fetchPhotosByLogoDec base db (normalizeLogoName s) =
        fetchPhotosByLogoDec base db s) ∧
    (∀ (base : Option String) (stdb : SingleTableDB) (s : String),
      fetchPhotosByLogoST base stdb (normalizeLogoName s) =
        fetchPhotosByLogoST base stdb s) := by
  refine ⟨normalizeLogoName_idem, ?_, ?_⟩
  · intro base db s
    unfold fetchPhotosByLogoDec
    rw [normalizeLogoName_idem]
  · intro base stdb s
    unfold fetchPhotosByLogoST
    rw [normalizeLogoName_idem]



theorem ingest_foldl {ε : Type} (detect : String → Except ε (List IngestDetection))
    (save : String → List IngestDetection → Except ε Unit) :
    ∀ (keys : List String) (st : IngestState),
      keys.foldl (ingestStep detect save) st =
        ⟨st.saved ++ keys.filterMap (processOutcome detect save),
         st.logs ++ keys.map (fun k =>
           match processOutcome detect save k with
           | some _ => "Stored logos for " ++ k
           | none => "Failed to process " ++ k)⟩ := by
  intro keys
  induction keys with
  | nil => intro st; simp
  | cons k rest ih =>
    intro st
    rw [List.foldl_cons, ih]
    unfold ingestStep processOutcome
    cases hd : detect k with
    | error e => simp [hd, List.filterMap_cons]
    | ok logos =>
      cases hs : save k logos with
      | error e => simp [hd, hs, List.filterMap_cons]
      | ok u => simp [hd, hs, List.filterMap_cons]


/-- C4: a failure while detecting or saving one key is caught and logged
for that key alone: the stored results are exactly the per-key successful
outcomes, every failed key is logged, and removing a failing key from the
batch leaves the stored results unchanged. -/
theorem C4_ingest_errors_isolated (ε : Type)
    (detect : String → Except ε (List IngestDetection))
    (save : String → List IngestDetection → Except ε Unit) :
    (∀ keys, (ingestMain detect save keys).saved =
      keys.filterMap (processOutcome detect save)) ∧
    (∀ keys, ∀ k ∈ keys, processOutcome detect save k = none →
      ("Failed to process " ++ k) ∈ (ingestMain detect save keys).logs) ∧
    (∀ ks₁ k ks₂, processOutcome detect save k = none →
      (ingestMain detect save (ks₁ ++ k :: ks₂)).saved =
        (ingestMain detect save (ks₁ ++ ks₂)).saved) := by
  refine ⟨?_, ?_, ?_⟩
  · intro keys
    unfold ingestMain
    rw [ingest_foldl]
    simp
  · intro keys k hk hfail
    unfold ingestMain
    rw [ingest_foldl]
    dsimp only
    rw [List.nil_append]
    rw [List.mem_map]
    refine ⟨k, hk, ?_⟩
    rw [hfail]
  · intro ks₁ k ks₂ hfail
    unfold ingestMain
    rw [ingest_foldl, ingest_foldl]
    dsimp only
    rw [List.filterMap_append, List.filterMap_append, List.filterMap_cons, hfail]


theorem C4_witness :
    (ingestMain (fun k => if k = "bad" then Except.error "boom" else Except.ok [])
        (fun _ _ => Except.ok ()) ["a", "bad", "c"]).saved =
      [("a", []), ("c", [])] ∧
    ("Failed to process " ++ "bad") ∈
      (ingestMain (fun k => if k = "bad" then Except.error "boom" else Except.ok [])
        (fun _ _ => Except.ok ()) ["a", "bad", "c"]).logs := by
  constructor
  · have h := (C4_ingest_errors_isolated String
      (fun k => if k = "bad" then Except.error "boom" else Except.ok [])
      (fun _ _ => Except.ok ())).1 ["a", "bad", "c"]
    rw [h]
    decide
  · exact (C4_ingest_errors_isolated String
      (fun k => if k = "bad" then Except.error "boom" else Except.ok [])
      (fun _ _ => Except.ok ())).2.1 ["a", "bad", "c"] "bad" (by decide) (by decide)



theorem writeMappingBatchCmds_allowed {α : Type} (resp : ℕ → List α) (fuel : ℕ)
    (batch : List α) : ∀ c ∈ writeMappingBatchCmds resp fuel batch, c ∈ allowedCmds := by
  intro c hc
  unfold writeMappingBatchCmds at hc
  rw [List.mem_map] at hc
  obtain ⟨_, _, rfl⟩ := hc
  decide


/-- C7: every database command issued by the modelled repository functions
and ingestion save paths is a put, batch put, update, scan, query or batch
get — never a delete. -/
theorem C7_no_deletes :
    (∀ db : DecoupledDB, ∀ c ∈ fetchAllPhotosDecCmds db, c ∈ allowedCmds) ∧
    (∀ c ∈ fetchAllLogosDecCmds, c ∈ allowedCmds) ∧
    (∀ (db : DecoupledDB) (q : String), ∀ c ∈ fetchPhotosByLogoDecCmds db q,
      c ∈ allowedCmds) ∧
    (∀ (α : Type) (resp : ℕ → List α) (fuel : ℕ) (batch : List α),
      ∀ c ∈ writeMappingBatchCmds resp fuel batch, c ∈ allowedCmds) ∧
    (∀ (resp : ℕ → ℕ → List IngestDetection) (fuel : ℕ)
        (logos : List IngestDetection),
      ∀ c ∈ savePhotoDecoupledCmds resp fuel logos, c ∈ allowedCmds) ∧
    (∀ (resp : ℕ → ℕ → List IngestDetection) (fuel : ℕ)
        (logos : List IngestDetection),
      ∀ c ∈ savePhotoSingleCmds resp fuel logos, c ∈ allowedCmds) := by
  refine ⟨?_, ?_, ?_, ?_, ?_, ?_⟩
  · intro db c hc
    unfold fetchAllPhotosDecCmds at hc
    by_cases h : db.photos = []
    · rw [if_pos h] at hc
      rcases List.mem_singleton.1 hc with rfl
      decide
    · rw [if_neg h] at hc
      rcases List.mem_cons.1 hc with rfl | hc
      · decide
      · rcases List.mem_singleton.1 hc with rfl
        decide
  · intro c hc
    rcases List.mem_singleton.1 hc with rfl
    decide
  · intro db q c hc
    unfold fetchPhotosByLogoDecCmds at hc
    by_cases h1 : queryMappingsDec db (normalizeLogoName q) = []
    · rw [if_pos h1] at hc
      rcases List.mem_singleton.1 hc with rfl
      decide
    · rw [if_neg h1] at hc
      by_cases h2 : (collectMappings ((queryMappingsDec db (normalizeLogoName q)).map
          (fun it => (truthyString it.photoId, asNumber it.confidence)))).uniquePhotoIds = []
      · rw [if_pos h2] at hc
        rcases List.mem_singleton.1 hc with rfl
        decide
      · rw [if_neg h2] at hc
        rcases List.mem_cons.1 hc with rfl | hc
        · decide
        · rcases List.mem_singleton.1 hc with rfl
          decide
  · intro α resp fuel batch c hc
    exact writeMappingBatchCmds_allowed resp fuel batch c hc
  · intro resp fuel logos c hc
    unfold savePhotoDecoupledCmds at hc
    rcases List.mem_cons.1 hc with rfl | hc
    · decide
    · by_cases h : logos = []
      · rw [if_pos h] at hc
        cases hc
      · rw [if_neg h] at hc
        rw [List.mem_append] at hc
        rcases hc with hc | hc
        · rw [List.mem_flatMap] at hc
          obtain ⟨e, _, hc⟩ := hc
          exact writeMappingBatchCmds_allowed _ _ _ c hc
        · rw [List.mem_map] at hc
          obtain ⟨_, _, rfl⟩ := hc
          decide
  · intro resp fuel logos c hc
    unfold savePhotoSingleCmds at hc
    rcases List.mem_cons.1 hc with rfl | hc
    · decide
    · by_cases h : logos = []
      · rw [if_pos h] at hc
        cases hc
      · rw [if_neg h] at hc
        rw [List.mem_append] at hc
        rcases hc with hc | hc
        · rw [List.mem_flatMap] at hc
          obtain ⟨e, _, hc⟩ := hc
          exact writeMappingBatchCmds_allowed _ _ _ c hc
        · rw [List.mem_map] at hc
          obtain ⟨_, _, rfl⟩ := hc
          decide


theorem C7_witness :
    DbCmd.scan ∈ allowedCmds ∧ DbCmd.put ∈ allowedCmds :=
  ⟨C7_no_deletes.1 ⟨[], []⟩ DbCmd.scan (by decide),
   (C7_no_deletes.2.2.2.2.1 (fun _ _ => []) 0 []) DbCmd.put (by decide)⟩



theorem writeMappingLoop_fuel_eq {α : Type} (resp : ℕ → List α) :
    ∀ (m i f₁ f₂ : ℕ), resp (i + m) = [] → m ≤ f₁ → m ≤ f₂ →
      writeMappingLoop resp i f₁ = writeMappingLoop resp i f₂ := by
  intro m
  induction m with
  | zero =>
    intro i f₁ f₂ h0 _ _
    rw [Nat.add_zero] at h0
    have hemp : (resp i).isEmpty = true := by rw [h0]; rfl
    cases f₁ <;> cases f₂ <;> simp [writeMappingLoop, hemp]
  | succ m ih =>
    intro i f₁ f₂ h hm1 hm2
    cases hre : (resp i).isEmpty with
    | true => cases f₁ <;> cases f₂ <;> simp [writeMappingLoop, hre]
    | false =>
      obtain ⟨a, rfl⟩ : ∃ a, f₁ = a + 1 := ⟨f₁ - 1, by omega⟩
      obtain ⟨b, rfl⟩ : ∃ b, f₂ = b + 1 := ⟨f₂ - 1, by omega⟩
      simp only [writeMappingLoop, hre, Bool.false_eq_true, if_false]
      congr 1
      refine ih (i + 1) a b ?_ (by omega) (by omega)
      rw [show i + 1 + m = i + (m + 1) from by omega]
      exact h


theorem writeMappingLoop_get {α : Type} (resp : ℕ → List α) :
    ∀ (f i j : ℕ) (sub : List α),
      (writeMappingLoop resp i f)[j]? = some sub → sub = resp (i + j) := by
  intro f
  induction f with
  | zero => intro i j sub h; simp [writeMappingLoop] at h
  | succ g ih =>
    intro i j sub h
    rw [writeMappingLoop] at h
    by_cases hre : (resp i).isEmpty = true
    · rw [if_pos hre] at h
      simp at h
    · rw [if_neg hre] at h
      cases j with
      | zero =>
        rw [List.getElem?_cons_zero] at h
        rw [Nat.add_zero]
        exact (Option.some.injEq _ _ ▸ h).symm
      | succ j' =>
        rw [List.getElem?_cons_succ] at h
        have := ih (i + 1) j' sub h
        rw [this]
        congr 1
        omega


/-- C8: the retry loop of `writeMappingBatch` re-submits exactly the items
the previous response reported as unprocessed; under the precondition that
the `n`-th response reports none, the loop terminates (the result is
independent of any fuel bound of at least `n`), every item of the original
batch is submitted at least once, and an empty batch is a no-op. -/
theorem C8_writeMappingBatch_retries (α : Type) (resp : ℕ → List α)
    (batch : List α) (n f₁ f₂ : ℕ)
    (hr : resp n = []) (h1 : n ≤ f₁) (h2 : n ≤ f₂) :
    (writeMappingBatch resp f₁ batch = writeMappingBatch resp f₂ batch) ∧
    (batch = [] → writeMappingBatch resp f₁ batch = []) ∧
    (∀ (j : ℕ) (sub : List α), (writeMappingBatch resp f₁ batch)[j + 1]? = some sub →
      sub = resp j) ∧
    (∀ x ∈ batch, ∃ sub ∈ writeMappingBatch resp f₁ batch, x ∈ sub) := by
  refine ⟨?_, ?_, ?_, ?_⟩
  · unfold writeMappingBatch
    by_cases hb : batch.isEmpty = true
    · rw [if_pos hb, if_pos hb]
    · rw [if_neg hb, if_neg hb]
      congr 1
      refine writeMappingLoop_fuel_eq resp n 0 f₁ f₂ ?_ h1 h2
      rw [Nat.zero_add]
      exact hr
  · intro hb
    unfold writeMappingBatch
    rw [if_pos (by rw [hb]; rfl)]
  · intro j sub h
    unfold writeMappingBatch at h
    by_cases hb : batch.isEmpty = true
    · rw [if_pos hb] at h
      simp at h
    · rw [if_neg hb] at h
      rw [List.getElem?_cons_succ] at h
      have := writeMappingLoop_get resp f₁ 0 j sub h
      rw [this, Nat.zero_add]
  · intro x hx
    refine ⟨batch, ?_, hx⟩
    unfold writeMappingBatch
    have hb : batch.isEmpty = false := by
      cases batch
      · cases hx
      · rfl
    rw [if_neg (by rw [hb]; exact Bool.false_ne_true)]
    exact List.mem_cons_self _ _


theorem C8_witness :
    (writeMappingBatch (fun _ => ([] : List ℕ)) 2 [5] =
      writeMappingBatch (fun _ => ([] : List ℕ)) 7 [5]) ∧
    (∃ sub ∈ writeMappingBatch (fun _ => ([] : List ℕ)) 2 [5], 5 ∈ sub) := by
  have h := C8_writeMappingBatch_retries ℕ (fun _ => []) [5] 0 2 7 rfl
    (by decide) (by decide)
  exact ⟨h.1, h.2.2.2 5 (by decide)⟩



theorem mapGet_finite_eq {m : List (String × JSNum)}
    (hfin : ∀ e ∈ m, e.2.isFinite = true) (pid : String) :
    mapGet m pid = (confQAt m pid).map JSNum.finite := by
  cases hg : mapGet m pid with
  | none =>
    unfold confQAt
    rw [hg]
    rfl
  | some x =>
    have hx := hfin (pid, x) (mapGet_mem hg)
    obtain ⟨q, rfl⟩ : ∃ q, x = JSNum.finite q := by
      cases x with
      | finite q => exact ⟨q, rfl⟩
      | nan => simp [JSNum.isFinite] at hx
      | posInf => simp [JSNum.isFinite] at hx
      | negInf => simp [JSNum.isFinite] at hx
    unfold confQAt
    rw [hg]
    rfl


theorem mappingPairsDec_finite (db : DecoupledDB) (q : String) :
    ∀ pr ∈ mappingPairsDec db q, ∀ x, pr.2 = some x → x.isFinite = true := by
  intro pr hpr x hx
  unfold mappingPairsDec at hpr
  rw [List.mem_map] at hpr
  obtain ⟨it, _, rfl⟩ := hpr
  exact asNumber_finite it.confidence x hx


theorem mappingPairsST_finite (db : SingleTableDB) (q : String) :
    ∀ pr ∈ mappingPairsST db q, ∀ x, pr.2 = some x → x.isFinite = true := by
  intro pr hpr x hx
  unfold mappingPairsST at hpr
  rw [List.mem_map] at hpr
  obtain ⟨it, _, rfl⟩ := hpr
  exact asNumber_finite it.confidence x hx


theorem collectMappings_conf (prs : List (Option String × Option JSNum))
    (hfin : ∀ pr ∈ prs, ∀ x, pr.2 = some x → x.isFinite = true) (pid : String) :
    mapGet (collectMappings prs).photoIdConfidences pid =
      (listMaxQ (finiteConfsOf prs pid)).map JSNum.finite := by
  have hfinall : ∀ e ∈ (collectMappings prs).photoIdConfidences, e.2.isFinite = true :=
    collect_confs_finite prs ⟨[], []⟩ hfin (by intro e he; cases he)
  rw [mapGet_finite_eq hfinall pid]
  congr 1
  have h := collect_conf_max prs ⟨[], []⟩ hfin (by intro e he; cases he) pid
  exact h


theorem buildDec_matchConfidence {base : Option String} {db : DecoupledDB}
    {q pid : String} {p : PhotoRecord} (h : buildDec base db q pid = some p) :
    p.matchConfidence =
      mapGet (collectMappings (mappingPairsDec db q)).photoIdConfidences pid := by
  unfold buildDec at h
  cases hg : jsMapGet (photoMapDec base db q) pid with
  | none => rw [hg] at h; cases h
  | some photo =>
    rw [hg] at h
    cases h
    rfl


theorem buildST_matchConfidence {base : Option String} {db : SingleTableDB}
    {q pid : String} {p : PhotoRecord} (h : buildST base db q pid = some p) :
    p.matchConfidence =
      mapGet (collectMappings (mappingPairsST db q)).photoIdConfidences pid := by
  unfold buildST at h
  cases hg : jsMapGet (photoMapST base db q) pid with
  | none => rw [hg] at h; cases h
  | some photo =>
    rw [hg] at h
    cases h
    rfl


/-- C1: every photo returned by `fetchPhotosByLogo` (either variant) is
backed by at least one mapping item of the queried, normalized slug whose
extracted photo id is the photo's id; an empty query result yields the
empty photo list. -/
theorem C1_fetchPhotosByLogo_only_matching :
    (∀ (base : Option String) (db : DecoupledDB) (q : String),
      ∀ p ∈ fetchPhotosByLogoDec base db q,
        ∃ m ∈ db.photoLogos, m.logoSlug = JSVal.str (normalizeLogoName q) ∧
          truthyString m.photoId = some p.id) ∧
    (∀ (base : Option String) (db : DecoupledDB) (q : String),
      queryMappingsDec db (normalizeLogoName q) = [] →
        fetchPhotosByLogoDec base db q = []) ∧
    (∀ (base : Option String) (stdb : SingleTableDB) (q : String),
      ∀ p ∈ fetchPhotosByLogoST base stdb q,
        ∃ m ∈ stdb.items, m.PK = JSVal.str ("LOGO#" ++ normalizeLogoName q) ∧
          pidOfSTMapping m = some p.id) ∧
    (∀ (base : Option String) (stdb : SingleTableDB) (q : String),
      queryMappingsST stdb (normalizeLogoName q) = [] →
        fetchPhotosByLogoST base stdb q = []) := by
  refine ⟨?_, ?_, ?_, ?_⟩
  · intro base db q p hp
    rw [fetchPhotosByLogoDec_eq] at hp
    rw [List.mem_filterMap] at hp
    obtain ⟨pid, hpid, hbuild⟩ := hp
    have hid : p.id = pid := buildDec_id hbuild
    rw [collectMappings_uniq] at hpid
    have hpid' := mem_dedupFirst hpid
    rw [List.mem_filterMap] at hpid'
    obtain ⟨pr, hpr, hpr1⟩ := hpid'
    unfold mappingPairsDec at hpr
    rw [List.mem_map] at hpr
    obtain ⟨it, hit, rfl⟩ := hpr
    unfold queryMappingsDec at hit
    rw [List.mem_filter] at hit
    obtain ⟨hmem, hslug⟩ := hit
    refine ⟨it, hmem, ?_, ?_⟩
    · simpa using hslug
    · rw [hid]
      exact hpr1
  · intro base db q h
    rw [fetchPhotosByLogoDec_eq]
    have hpairs : mappingPairsDec db q = [] := by
      unfold mappingPairsDec
      rw [h]
      rfl
    rw [hpairs]
    rfl
  · intro base stdb q p hp
    rw [fetchPhotosByLogoST_eq] at hp
    rw [List.mem_filterMap] at hp
    obtain ⟨pid, hpid, hbuild⟩ := hp
    have hid : p.id = pid := buildST_id hbuild
    rw [collectMappings_uniq] at hpid
    have hpid' := mem_dedupFirst hpid
    rw [List.mem_filterMap] at hpid'
    obtain ⟨pr, hpr, hpr1⟩ := hpid'
    unfold mappingPairsST at hpr
    rw [List.mem_map] at hpr
    obtain ⟨it, hit, rfl⟩ := hpr
    unfold queryMappingsST at hit
    rw [List.mem_filter] at hit
    obtain ⟨hmem, hslug⟩ := hit
    refine ⟨it, hmem, ?_, ?_⟩
    · simpa using hslug
    · rw [hid]
      exact hpr1
  · intro base stdb q h
    rw [fetchPhotosByLogoST_eq]
    have hpairs : mappingPairsST stdb q = [] := by
      unfold mappingPairsST
      rw [h]
      rfl
    rw [hpairs]
    rfl


/-- C9: the photos returned by `fetchPhotosByLogo` are deduplicated by
photo id in first-occurrence order of the mapping items, and each
returned `matchConfidence` is exactly the maximum finite confidence among
the queried slug's mapping items for that photo id (absent when there is
none). -/
theorem C9_dedup_and_max_confidence :
    (∀ (base : Option String) (db : DecoupledDB) (q : String),
      ((fetchPhotosByLogoDec base db q).map (fun p => p.id)).Nodup ∧
      ((fetchPhotosByLogoDec base db q).map (fun p => p.id)).Sublist
        (dedupFirst ((mappingPairsDec db q).filterMap (fun pr => pr.1))) ∧
      (∀ p ∈ fetchPhotosByLogoDec base db q,
        p.matchConfidence =
          (listMaxQ (finiteConfsOf (mappingPairsDec db q) p.id)).map JSNum.finite)) ∧
    (∀ (base : Option String) (stdb : SingleTableDB) (q : String),
      ((fetchPhotosByLogoST base stdb q).map (fun p => p.id)).Nodup ∧
      ((fetchPhotosByLogoST base stdb q).map (fun p => p.id)).Sublist
        (dedupFirst ((mappingPairsST stdb q).filterMap (fun pr => pr.1))) ∧
      (∀ p ∈ fetchPhotosByLogoST base stdb q,
        p.matchConfidence =
          (listMaxQ (finiteConfsOf (mappingPairsST stdb q) p.id)).map JSNum.finite)) := by
  constructor
  · intro base db q
    have hids : (fetchPhotosByLogoDec base db q).map (fun p => p.id) =
        (collectMappings (mappingPairsDec db q)).uniquePhotoIds.filter
          (fun pid => (buildDec base db q pid).isSome) := by
      rw [fetchPhotosByLogoDec_eq]
      exact map_id_filterMap _ (fun pid p h => buildDec_id h) _
    have hnodup : (collectMappings (mappingPairsDec db q)).uniquePhotoIds.Nodup := by
      rw [collectMappings_uniq]
      exact dedupFirst_nodup _
    refine ⟨?_, ?_, ?_⟩
    · rw [hids]
      exact (List.filter_sublist _).nodup hnodup
    · rw [hids, ← collectMappings_uniq]
      exact List.filter_sublist _
    · intro p hp
      rw [fetchPhotosByLogoDec_eq] at hp
      rw [List.mem_filterMap] at hp
      obtain ⟨pid, hpid, hbuild⟩ := hp
      have hid : p.id = pid := buildDec_id hbuild
      rw [buildDec_matchConfidence hbuild, hid]
      exact collectMappings_conf _ (mappingPairsDec_finite db q) pid
  · intro base stdb q
    have hids : (fetchPhotosByLogoST base stdb q).map (fun p => p.id) =
        (collectMappings (mappingPairsST stdb q)).uniquePhotoIds.filter
          (fun pid => (buildST base stdb q pid).isSome) := by
      rw [fetchPhotosByLogoST_eq]
      exact map_id_filterMap _ (fun pid p h => buildST_id h) _
    have hnodup : (collectMappings (mappingPairsST stdb q)).uniquePhotoIds.Nodup := by
      rw [collectMappings_uniq]
      exact dedupFirst_nodup _
    refine ⟨?_, ?_, ?_⟩
    · rw [hids]
      exact (List.filter_sublist _).nodup hnodup
    · rw [hids, ← collectMappings_uniq]
      exact List.filter_sublist _
    · intro p hp
      rw [fetchPhotosByLogoST_eq] at hp
      rw [List.mem_filterMap] at hp
      obtain ⟨pid, hpid, hbuild⟩ := hp
      have hid : p.id = pid := buildST_id hbuild
      rw [buildST_matchConfidence hbuild, hid]
      exact collectMappings_conf _ (mappingPairsST_finite stdb q) pid



theorem mk_eq_empty_iff {l : List Char} : String.mk l = "" ↔ l = [] :=
  ⟨fun h => congrArg String.data h, fun h => by rw [h]⟩


theorem sanitizeId_nil_iff {l : List Char} : sanitizeId l = [] ↔ l = [] := by
  unfold sanitizeId
  exact List.map_eq_nil_iff


theorem nonEmptyStrKey_elim {v : JSVal} (h : nonEmptyStrKey v = true) :
    ∃ s, v = JSVal.str s ∧ s ≠ "" := by
  cases v with
  | str s =>
    refine ⟨s, rfl, ?_⟩
    simpa [nonEmptyStrKey] using h
  | undef => simp [nonEmptyStrKey] at h
  | null => simp [nonEmptyStrKey] at h
  | num n => simp [nonEmptyStrKey] at h
  | bigint i => simp [nonEmptyStrKey] at h
  | bool b => simp [nonEmptyStrKey] at h
  | obj => simp [nonEmptyStrKey] at h


theorem finiteScore_elim {a : VisionLogoAnnot} (h : finiteScore a = true) :
    ∀ s, a.score = some s → s.isFinite = true := by
  intro s hs
  unfold finiteScore at h
  rw [hs] at h
  exact h


/-- C5 (amended): `keyToPhotoId` is empty exactly when stripping the
prefix and the trailing extension leaves nothing of the key (so e.g. a
bare-extension object like `photos/.jpg` gets an empty id), and every
`PhotoRecord` the decoupled repository returns carries a non-empty id,
given DynamoDB's guarantee that the `photoId` key attribute of the
`Photos` table is a non-empty string. -/
theorem C5_identifiers_nonempty :
    (∀ pre key : String, keyToPhotoId pre key = "" ↔
      stripExtension ((if key.data.take pre.data.length = pre.data
        then String.mk (key.data.drop pre.data.length) else key).data) = []) ∧
    (∀ (base : Option String) (parse : String → Option ℤ) (db : DecoupledDB),
      (∀ it ∈ db.photos, nonEmptyStrKey it.photoId = true) →
      ∀ p ∈ fetchAllPhotosDec base parse db, p.id ≠ "") ∧
    (∀ (base : Option String) (db : DecoupledDB) (q : String),
      ∀ p ∈ fetchPhotosByLogoDec base db q, p.id ≠ "") := by
  refine ⟨?_, ?_, ?_⟩
  · intro pre key
    unfold keyToPhotoId
    rw [mk_eq_empty_iff, sanitizeId_nil_iff]
  · intro base parse db hkeys p hp
    unfold fetchAllPhotosDec at hp
    by_cases h : db.photos = []
    · rw [if_pos h] at hp
      cases hp
    · rw [if_neg h] at hp
      have hp' := mem_jsSortBy _ _ p hp
      rw [List.mem_map] at hp'
      obtain ⟨e, he, rfl⟩ := hp'
      have hgoal : e.2.id ≠ "" := by
        obtain ⟨i, a⟩ := e
        have hmem := List.mem_enum he
        have ha : a ∈ db.photos.map (mapPhotoItem base) := by
          obtain ⟨hlt, hget⟩ := hmem
          rw [hget]
          exact List.getElem_mem hlt
        rw [List.mem_map] at ha
        obtain ⟨it, hit, rfl⟩ := ha
        obtain ⟨s, hst, hne⟩ := nonEmptyStrKey_elim (hkeys it hit)
        show (mapPhotoItem base it).id ≠ ""
        unfold mapPhotoItem
        rw [hst]
        simpa [asString] using hne
      split
      · exact hgoal
      · exact hgoal
  · intro base db q p hp
    rw [fetchPhotosByLogoDec_eq] at hp
    rw [List.mem_filterMap] at hp
    obtain ⟨pid, _, hbuild⟩ := hp
    unfold buildDec at hbuild
    cases hg : jsMapGet (photoMapDec base db q) pid with
    | none => rw [hg] at hbuild; cases hbuild
    | some photo =>
      rw [hg] at hbuild
      cases hbuild
      have h2 := photoMapDec_id base db q (pid, photo) (jsMapGet_mem hg)
      show photo.id ≠ ""
      rw [h2.1]
      exact h2.2


theorem C5_counterexample :
    acceptedByListing "photos/.jpg" = true ∧
    keyToPhotoId "photos/" "photos/.jpg" = "" := by
  constructor
  · decide
  · decide


theorem C5_witness : pW5.id ≠ "" := by
  have heval : fetchAllPhotosDec none (fun _ => none) db5W = [pW5] := by
    simp [fetchAllPhotosDec, db5W, pW5, jsSortBy, mapPhotoItem, lastIdxWith,
      truthyString, asString, resolvePublicUrl, resolvePublicUrl.resolveFromKey]
  refine C5_identifiers_nonempty.2.1 none (fun _ => none) db5W (by decide) pW5 ?_
  rw [heval]
  exact List.mem_singleton.2 rfl


/-- C6 (amended): every confidence produced by `asNumber` and by the
repository's `mapLogoMapping` is finite; the detections produced by the
ingestion scripts have finite confidence provided every Vision score is
finite or missing — the code substitutes `0` only for missing scores, so
a `NaN` score flows into the stored detection unchanged. -/
theorem C6_confidences_finite :
    (∀ (v : JSVal) (n : JSNum), asNumber v = some n → n.isFinite = true) ∧
    (∀ item : MappingItem, (mapLogoMapping item).confidence.isFinite = true) ∧
    (∀ annots : List VisionLogoAnnot, (∀ a ∈ annots, finiteScore a = true) →
      ∀ d ∈ detectLogosForKey annots, d.confidence.isFinite = true) := by
  refine ⟨asNumber_finite, ?_, ?_⟩
  · intro item
    show ((asNumber item.confidence).getD (JSNum.finite 0)).isFinite = true
    cases hn : asNumber item.confidence with
    | none => rfl
    | some x => exact asNumber_finite item.confidence x hn
  · intro annots hsc d hd
    unfold detectLogosForKey at hd
    rw [List.mem_map] at hd
    obtain ⟨e, he, rfl⟩ := hd
    obtain ⟨i, a⟩ := e
    have hmem := List.mem_enum he
    have ha : a ∈ annots.filter (fun a => strTruthy a.description) := by
      obtain ⟨hlt, hget⟩ := hmem
      rw [hget]
      exact List.getElem_mem hlt
    have ha' : a ∈ annots := (List.filter_sublist _).subset ha
    show ((a.score.getD (JSNum.finite 0))).isFinite = true
    cases hs : a.score with
    | none => rfl
    | some s => exact finiteScore_elim (hsc a ha') s hs


theorem C6_counterexample :
    (detectLogosForKey [⟨some "Nike", some JSNum.nan, none⟩]).map
      (fun d => d.confidence.isFinite) = [false] := by
  decide


theorem C6_witness :
    (⟨"Nike", "nike", JSNum.finite 1, none, 0⟩ : IngestDetection).confidence.isFinite
      = true :=
  C6_confidences_finite.2.2 [⟨some "Nike", some (JSNum.finite 1), none⟩]
    (by decide) _ (by decide)



theorem C1_witness :
    fetchPhotosByLogoDec none (DecoupledDB.mk [] []) "Nike" = [] :=
  C1_fetchPhotosByLogo_only_matching.2.1 none (DecoupledDB.mk [] []) "Nike" (by decide)


theorem C9_witness :
    pW9.matchConfidence =
      (listMaxQ (finiteConfsOf (mappingPairsDec db9W "Nike") pW9.id)).map JSNum.finite :=
  (C9_dedup_and_max_confidence.1 none db9W "Nike").2.2 pW9 (by decide)



end LogoSearch
